import Mathlib

/-!
Verification development for the MixLaboratory AudioAnalyzerBridge core
(FFT_Processor.cpp, BPM_Detector.cpp), shallowly embedded in Lean 4.

Modelling conventions:
- float / double arithmetic is idealised as exact arithmetic: sample values
  and spectra live in ℝ / ℂ, while quantities whose arithmetic is exact in
  the claims (stretch factor, tempo weights) live in ℚ;
- `size_t` subtraction is modelled by `usub64` (wrap-around at 2 ^ 64);
- `std::vector` is modelled by `List`, `operator[]` by `List.getD _ 0`
  (out-of-range indexing in C++ is undefined behaviour; where a claim is
  about bounds safety a checked `Option`-returning variant is used);
- C++ exceptions are modelled by `Except`.
-/

namespace AudioAnalyzer

/-- Unsigned 64-bit subtraction: `a - b` as computed on `size_t` values
(for `a, b < 2 ^ 64` this is exactly the C++ result). -/
def usub64 (a b : ℕ) : ℕ :=
  if b ≤ a then a - b else a + (2 ^ 64 - b)

/-- Error raised by the transform engine (`std::invalid_argument` in C++). -/
inductive FFTError where
  | invalidArgument
  deriving DecidableEq, Repr

namespace FFT_Processor

/-- Bit reversal of the low `n` bits of `m` (the permutation that the
bit-reversal loop of `FFT_Processor::FFT` realises): the least significant
bit of `m` becomes the most significant of the result. -/
def bitRev : ℕ → ℕ → ℕ
  | 0, _ => 0
  | n + 1, m => m % 2 * 2 ^ n + bitRev n (m / 2)

/-- Gold–Rader increment, the literal `while (j >= bit) { j -= bit; bit >>= 1; }
j += bit;` loop of `FFT_Processor::FFT` (lines 45-51).  `bit = 0` would loop
forever in C++; it is unreachable for the inputs the algorithm produces and
the model returns `j` there. -/
def grLoop (j bit : ℕ) : ℕ :=
  if bit = 0 then j
  else if bit ≤ j then grLoop (j - bit) (bit / 2)
  else j + bit
termination_by bit
decreasing_by exact Nat.div_lt_self (Nat.pos_of_ne_zero (by assumption)) one_lt_two

/-- Swap the values at two positions of an array modelled as a function. -/
def swapFn (a : ℕ → ℂ) (i j : ℕ) : ℕ → ℂ :=
  fun k => if k = i then a j else if k = j then a i else a k

/-- The bit-reversal permutation pass of `FFT_Processor::FFT` (lines 42-56):
`j` starts at 0, is advanced by the Gold–Rader loop for each `i` in `[1, N)`,
and `x[i]`, `x[j]` are swapped when `i < j`. -/
def bitrevLoop (N : ℕ) (x : ℕ → ℂ) : ℕ → ℂ :=
  ((List.range' 1 (N - 1)).foldl
    (fun (s : (ℕ → ℂ) × ℕ) i =>
      let j := grLoop s.2 (N / 2)
      (if i < j then swapFn s.1 i j else s.1, j))
    (x, 0)).1

/-- Twiddle factor `exp(-2πi·k/N)`, stored by `FFT_Processor::FFT` as
`complex(cos angle, sin angle)` with `angle = -2π·k/N` (lines 59-64). -/
noncomputable def tw (N k : ℕ) : ℂ :=
  Complex.ofReal (Real.cos (-(2 * Real.pi * k) / N)) +
    Complex.ofReal (Real.sin (-(2 * Real.pi * k) / N)) * Complex.I

/-- One butterfly stage of the iterative radix-2 decimation-in-time loop
(lines 67-84) for block length `len`, acting on the array as a parallel
update: position `i + j` (block start `i`, `j < len/2`) becomes
`x[i+j] + twiddle·x[i+j+len/2]` and position `i + j + len/2` becomes
`x[i+j] - twiddle·x[i+j+len/2]`, with `twiddle = tw N (j·(N/len))`. -/
noncomputable def stageLen (N len : ℕ) (a : ℕ → ℂ) : ℕ → ℂ :=
  fun idx =>
    let half := len / 2
    let r := idx % len
    if r < half then
      a idx + tw N (r * (N / len)) * a (idx + half)
    else
      a (idx - half) - tw N ((r - half) * (N / len)) * a idx

/-- The first `s` butterfly stages (`len = 2, 4, …, 2^s`) applied to `a`. -/
noncomputable def fftStages (N : ℕ) (a : ℕ → ℂ) : ℕ → (ℕ → ℂ)
  | 0 => a
  | s + 1 => stageLen N (2 ^ (s + 1)) (fftStages N a s)

/-- The body of `FFT_Processor::FFT` after its guards: bit-reversal
permutation followed by the `log2 N` butterfly stages, read back as a list. -/
noncomputable def fftRun (x : List ℂ) : List ℂ :=
  let N := x.length
  (List.range N).map (fftStages N (bitrevLoop N (fun i => x.getD i 0)) N.log2)

/-- `FFT_Processor::FFT` (lines 29-85): no-op for `N ≤ 1`, then the
power-of-two check `(N & (N - 1)) != 0` (throwing `std::invalid_argument`),
then the in-place transform. -/
noncomputable def FFT (x : List ℂ) : Except FFTError (List ℂ) :=
  if x.length ≤ 1 then .ok x
  else if x.length &&& (x.length - 1) ≠ 0 then .error .invalidArgument
  else .ok (fftRun x)

/-- The body of `FFT_Processor::IFFT` after its guards (lines 104-118):
conjugate, forward transform, conjugate and scale by `1/N`. -/
noncomputable def ifftRun (x : List ℂ) : List ℂ :=
  let N := x.length
  ((fftRun (x.map fun z => (starRingEnd ℂ) z)).map
    fun z => (starRingEnd ℂ) z * (1 / (N : ℂ)))

/-- `FFT_Processor::IFFT` (lines 92-119): the same `N ≤ 1` no-op and
power-of-two guard as `FFT`, then conjugate / transform / conjugate-scale. -/
noncomputable def IFFT (x : List ℂ) : Except FFTError (List ℂ) :=
  if x.length ≤ 1 then .ok x
  else if x.length &&& (x.length - 1) ≠ 0 then .error .invalidArgument
  else .ok (ifftRun x)

/-- `FFT_Processor::hanningWindow` (lines 127-135):
`w[i] = 0.5·(1 - cos(2π·i/(size-1)))`.  The subtraction `size - 1` is on
`unsigned int`; for `size = 1` the C++ divides by zero (producing NaN), the
exact model yields `0/0 = 0` — either way a buffer is returned, not an error. -/
noncomputable def hanningWindow (size : ℕ) : List ℝ :=
  (List.range size).map fun i =>
    0.5 * (1 - Real.cos (2 * Real.pi * i / ((size - 1 : ℕ) : ℝ)))

/-- `FFT_Processor::applyHannWindow` (lines 144-153): multiply the buffer
in place by its own Hann window, `norm = 2π/(N-1)`. -/
noncomputable def applyHannWindow (buffer : List ℝ) : List ℝ :=
  let N := buffer.length
  let norm : ℝ := 2 * Real.pi / ((N - 1 : ℕ) : ℝ)
  buffer.mapIdx fun i v => v * (0.5 * (1 - Real.cos (i * norm)))

open Classical in
/-- The function `FFT_Processor::applyPhaseVocoder` (lines 165-256).  Returns the rebuilt
conjugate-symmetric spectrum together with the updated `previousPhase` and
`previousMagnitude` tracking vectors (mutated by reference in C++).  The
`magnitudeRatio` accumulator of the C++ transient loop is dead code and is
omitted. -/
noncomputable def applyPhaseVocoder (spectrum : List ℂ) (stretchFactor : ℚ)
    (previousPhase previousMagnitude : List ℝ) (frameDelta : ℝ) :
    List ℂ × List ℝ × List ℝ :=
  let N := spectrum.length
  let numBins := N / 2 + 1
  let omega : ℝ := 2 * Real.pi / N
  -- Transient test (lines 179-194): some bin i in [1, numBins-1) has
  -- previousMagnitude[i] > 0 and currentMag / previousMagnitude[i] > 3.
  let isTransient : Prop := ∃ i, 1 ≤ i ∧ i + 1 < numBins ∧
    0 < previousMagnitude.getD i 0 ∧
    3 < Complex.abs (spectrum.getD i 0) / previousMagnitude.getD i 0
  -- Per-bin new phase (lines 197-232).
  let newPhase : ℕ → ℝ := fun i =>
    let magnitude := Complex.abs (spectrum.getD i 0)
    let phase := Complex.arg (spectrum.getD i 0)
    if 0 < i ∧ i + 1 < numBins then
      if isTransient ∧ 0.01 < magnitude then phase
      else
        let expectedPhaseAdvance := omega * i * frameDelta
        let phaseDiff := phase - previousPhase.getD i 0
        let wrapped := phaseDiff -
          2 * Real.pi * (round (phaseDiff / (2 * Real.pi)) : ℤ)
        let instFreq := expectedPhaseAdvance + wrapped / frameDelta
        previousPhase.getD i 0 + instFreq * frameDelta * (stretchFactor : ℝ)
    else 0
  -- modifiedSpectrum[i] = polar(magnitude, newPhase) for the positive bins.
  let posSpec : ℕ → ℂ := fun i =>
    Complex.ofReal (Complex.abs (spectrum.getD i 0)) *
      Complex.exp (Complex.ofReal (newPhase i) * Complex.I)
  -- Conjugate-symmetric fill (lines 243-246) and the final forcing of DC and
  -- Nyquist to be real (lines 249-253).
  let full : ℕ → ℂ := fun idx =>
    if idx = 0 then Complex.ofReal (posSpec 0).re
    else if idx < numBins then
      if N % 2 = 0 ∧ idx = N / 2 then Complex.ofReal (posSpec idx).re
      else posSpec idx
    else (starRingEnd ℂ) (posSpec (N - idx))
  ((List.range N).map full,
   (List.range numBins).map newPhase,
   (List.range numBins).map fun i => Complex.abs (spectrum.getD i 0))

/-- State threaded through the frame loop of `FFT_Processor::timeStretch`:
output buffer, overlap-compensation buffer, the two phase-vocoder tracking
vectors and the current synthesis position. -/
structure StretchState where
  output : List ℝ
  overlapCompensation : List ℝ
  previousPhase : List ℝ
  previousMagnitude : List ℝ
  outputPos : ℕ

/-- One iteration of the frame loop of `FFT_Processor::timeStretch`
(lines 347-377) at analysis position `pos`: window + FFT, phase-vocoder
processing, IFFT, windowed overlap-add (guarded by
`outputPos + windowSize ≤ output.size()`), advance of the synthesis position. -/
noncomputable def stretchFrame (paddedInput analysisWindow synthesisWindow : List ℝ)
    (stretchFactor : ℚ) (windowSize analysisHop synthesisHop : ℕ)
    (st : StretchState) (pos : ℕ) : StretchState :=
  let frame : List ℂ := (List.range windowSize).map fun i =>
    Complex.ofReal (paddedInput.getD (pos + i) 0 * analysisWindow.getD i 0)
  let spectrum := FFT_Processor.fftRun frame
  -- frameDelta = analysisHop / 44100 (a fixed assumed rate, line 358).
  let frameDelta : ℝ := (analysisHop : ℝ) / 44100
  let processed := FFT_Processor.applyPhaseVocoder spectrum stretchFactor
    st.previousPhase st.previousMagnitude frameDelta
  let timeDomain := FFT_Processor.ifftRun processed.1
  let st' :=
    if st.outputPos + windowSize ≤ st.output.length then
      (List.range windowSize).foldl
        (fun (s : List ℝ × List ℝ) i =>
          let windowedSample := (timeDomain.getD i 0).re * synthesisWindow.getD i 0
          (s.1.set (st.outputPos + i) (s.1.getD (st.outputPos + i) 0 + windowedSample),
           s.2.set (st.outputPos + i)
             (s.2.getD (st.outputPos + i) 0 +
               synthesisWindow.getD i 0 * synthesisWindow.getD i 0)))
        (st.output, st.overlapCompensation)
    else (st.output, st.overlapCompensation)
  { output := st'.1
    overlapCompensation := st'.2
    previousPhase := processed.2.1
    previousMagnitude := processed.2.2
    outputPos := st.outputPos + synthesisHop }

open Classical in
/-- The function `FFT_Processor::timeStretch` (lines 266-431).  The guard clauses return
the input unchanged; otherwise the fixed 4096-sample window phase vocoder
runs, the output is trimmed to `floor(inputLength·factor)` samples,
RMS-matched against the input and clipped to `[-0.95, 0.95]`.  The float
literals `0.001f`, `0.25f`, `4.0f`, `0.92f` etc. are idealised as the exact
rationals they denote. -/
noncomputable def timeStretch (input : List ℝ) (stretchFactor : ℚ) : List ℝ :=
  if input.isEmpty ∨ stretchFactor ≤ 0 then input
  else if |stretchFactor - 1| < 1 / 1000 then input
  else if stretchFactor < 1 / 4 ∨ 4 < stretchFactor then input
  else
    -- windowSize is overridden to 4096 regardless of the caller (line 289).
    let windowSize : ℕ := 4096
    let analysisHop : ℕ := windowSize / 4
    let synthesisHop : ℕ := (⌊(analysisHop : ℚ) * stretchFactor⌋).toNat
    let analysisWindow0 := FFT_Processor.hanningWindow windowSize
    let synthesisWindow := FFT_Processor.hanningWindow windowSize
    -- Sum of squared analysis-window samples at stride analysisHop
    -- (lines 301-308); the loop touches i = 0, hop, 2·hop, 3·hop.
    let analysisWindowSum : ℝ :=
      ((List.range (windowSize / analysisHop)).map fun k =>
        analysisWindow0.getD (k * analysisHop) 0 *
          analysisWindow0.getD (k * analysisHop) 0).sum
    let analysisWindow :=
      if 0 < analysisWindowSum then
        analysisWindow0.map fun v => v * (1 / Real.sqrt analysisWindowSum)
      else analysisWindow0
    -- synthesisNorm = 1.0 (lines 322-326): the synthesis window is unscaled.
    let outputLength : ℕ :=
      (⌊(input.length : ℚ) * stretchFactor + (windowSize : ℚ)⌋).toNat
    let paddedInput :=
      List.replicate windowSize (0 : ℝ) ++ input ++ List.replicate windowSize (0 : ℝ)
    -- the loop runs while pos + windowSize ≤ paddedInput.size(), stepping by
    -- analysisHop; paddedInput is always at least 2·windowSize long.
    let numFrames := (paddedInput.length - windowSize) / analysisHop + 1
    let finalState :=
      ((List.range numFrames).map fun k => k * analysisHop).foldl
        (stretchFrame paddedInput analysisWindow synthesisWindow stretchFactor
          windowSize analysisHop synthesisHop)
        { output := List.replicate outputLength 0
          overlapCompensation := List.replicate outputLength 0
          previousPhase := List.replicate (windowSize / 2 + 1) 0
          previousMagnitude := List.replicate (windowSize / 2 + 1) 0
          outputPos := 0 }
    -- Overlap compensation (lines 380-386).
    let compensated := List.zipWith
      (fun o c => if (0.01 : ℝ) < c then o / Real.sqrt c else o)
      finalState.output finalState.overlapCompensation
    -- Trim to floor(inputLength·factor) samples (lines 389-393).
    let expectedLength : ℕ := (⌊(input.length : ℚ) * stretchFactor⌋).toNat
    let trimmed :=
      if expectedLength < compensated.length then compensated.take expectedLength
      else compensated
    -- RMS amplitude matching (lines 396-422).
    let inputRMS := Real.sqrt ((input.map fun s => s * s).sum / input.length)
    let outputRMS := Real.sqrt ((trimmed.map fun s => s * s).sum / trimmed.length)
    let matched :=
      if 0 < outputRMS ∧ 0 < inputRMS then
        trimmed.map fun s => s * min (inputRMS / outputRMS) 3
      else trimmed
    -- Final safety clipping (lines 425-428).
    matched.map fun s => max (-0.95) (min 0.95 s)

end FFT_Processor

namespace BPM_Detector

/-- Spectral flux of one analysis frame of `BPM_Detector::detectOnsets`
(lines 54-92) for a given window size: extract samples at
`frame·hopSize + i` (zero when past the end), apply the Hann window,
transform, and accumulate the half-wave-rectified, frequency-weighted
magnitude increase over bins `1 .. windowSize/2`.  Returns the flux value
together with the updated `prevMagnitudes` (as a function on bins). -/
noncomputable def fluxFrame (samples : List ℝ) (sampleRate windowSize hopSize : ℕ)
    (prevMagnitudes : ℕ → ℝ) (frame : ℕ) : ℝ × (ℕ → ℝ) :=
  let buffer := (List.range windowSize).map fun i =>
    samples.getD (frame * hopSize + i) 0
  let windowed := FFT_Processor.applyHannWindow buffer
  let fftBuffer : List ℂ := windowed.map Complex.ofReal
  let spec := FFT_Processor.fftRun fftBuffer
  let mag : ℕ → ℝ := fun i => Complex.abs (spec.getD i 0)
  let weight : ℕ → ℝ := fun i =>
    let freq : ℝ := (i : ℝ) * sampleRate / windowSize
    if 100 < freq ∧ freq < 8000 then 1 else 0.5
  let flux := Finset.sum (Finset.Icc 1 (windowSize / 2)) fun i =>
    let diff := mag i - prevMagnitudes i
    if 0 < diff then diff * weight i else 0
  (flux, fun i => if 1 ≤ i ∧ i ≤ windowSize / 2 then mag i else prevMagnitudes i)

/-- The spectral-flux sequence of `BPM_Detector::detectOnsets` for one window
size: the frame loop threads `prevMagnitudes` (initially all zero) through
`fluxFrame` and collects one flux value per frame. -/
noncomputable def spectralFlux (samples : List ℝ) (sampleRate windowSize numFrames : ℕ) :
    List ℝ :=
  ((List.range numFrames).foldl
    (fun (s : (ℕ → ℝ) × List ℝ) frame =>
      let r := fluxFrame samples sampleRate windowSize 512 s.1 frame
      (r.2, s.2 ++ [r.1]))
    (fun _ => 0, [])).2

/-- Median of an 11-value window: `std::nth_element` places the 6th-smallest
value (index `medianSize/2 = 5`) at the middle, so the median is the entry at
index 5 of the sorted window. -/
noncomputable def median11 (window : List ℝ) : ℝ :=
  (window.mergeSort fun a b => decide (a ≤ b)).getD 5 0

open Classical in
/-- The function `BPM_Detector::detectOnsets` (lines 34-138).  The frame
count `(samples.size() - 1024) / 512 + 1` is `size_t` arithmetic, hence the
`usub64`; it is computed from the smaller (1024) window only, and frames of
the 2048 window that run past the input are zero-padded by `fluxFrame`.
Each window size contributes its flux sequence normalised by its own maximum
(skipped when the maximum is 0), the sum is halved, and an 11-point median
filter removes the baseline, clamping negatives to 0. -/
noncomputable def detectOnsets (samples : List ℝ) (sampleRate : ℕ) : List ℝ :=
  let hopSize : ℕ := 512
  let numFrames := usub64 samples.length 1024 / hopSize + 1
  let onsetStrength :=
    ([1024, 2048] : List ℕ).foldl
      (fun acc windowSize =>
        let flux := spectralFlux samples sampleRate windowSize numFrames
        -- `*std::max_element` over the flux values, which are sums of
        -- positive terms and hence nonnegative, so the 0 seed is neutral.
        let maxFlux := flux.foldl max 0
        if 0 < maxFlux then List.zipWith (fun o f => o + f / maxFlux) acc flux
        else acc)
      (List.replicate numFrames 0)
  let halved := onsetStrength.map fun v => v / 2
  (List.range halved.length).map fun (i : ℕ) =>
    let window := (List.range 11).map fun (j : ℕ) =>
      let idx : ℤ := (i : ℤ) + (j : ℤ) - 5
      if 0 ≤ idx ∧ idx < (halved.length : ℤ) then halved.getD idx.toNat 0 else 0
    let median := median11 window
    let diff := halved.getD i 0 - median
    if 0 < diff then diff else 0

/-- Adaptive threshold of `BPM_Detector::findBeats` (lines 161-178) at frame
`i`: mean plus `thresholdFactor` standard deviations over a 30-frame window
centred at `i` and clamped to the buffer. -/
noncomputable def threshold (onsetFunction : List ℝ) (thresholdFactor : ℝ) (i : ℕ) : ℝ :=
  let length := onsetFunction.length
  let lo := if 15 < i then i - 15 else 0
  let hi := if i + 15 < length then i + 15 else length
  let count : ℕ := hi - lo
  let sum := Finset.sum (Finset.Ico lo hi) fun j => onsetFunction.getD j 0
  let sumSq := Finset.sum (Finset.Ico lo hi) fun j =>
    onsetFunction.getD j 0 * onsetFunction.getD j 0
  let mean := sum / count
  let variance := sumSq / count - mean * mean
  mean + thresholdFactor * Real.sqrt variance

/-- Peak predicate of `BPM_Detector::findBeats` (lines 181-202): frame `i`
strictly exceeds its adaptive threshold and no in-range neighbour
`j ∈ [i-9, i+9] \ {i}` is strictly larger. -/
def isBeat (onsetFunction : List ℝ) (thresholdFactor : ℝ) (i : ℕ) : Prop :=
  threshold onsetFunction thresholdFactor i < onsetFunction.getD i 0 ∧
  ∀ j : ℤ, -9 ≤ j → j ≤ 9 → j ≠ 0 →
    0 ≤ (i : ℤ) + j → (i : ℤ) + j < (onsetFunction.length : ℤ) →
    ¬ onsetFunction.getD i 0 < onsetFunction.getD ((i : ℤ) + j).toNat 0

open Classical in
/-- The function `BPM_Detector::findBeats` (lines 149-206): the candidate
loop runs `i` from 9 up to `length - 9` and keeps the frames satisfying
`isBeat`.  The C++ upper bound `length - windowSize` is `size_t` arithmetic;
for `length < 9` the loop reads out of bounds (undefined behaviour, see the
checked variant `findBeatsChecked`), so the model iterates over the
well-defined range only. -/
noncomputable def findBeats (onsetFunction : List ℝ) (thresholdFactor : ℝ) : List ℕ :=
  (List.range' 9 (onsetFunction.length - 18)).filter fun i =>
    decide (isBeat onsetFunction thresholdFactor i)

open Classical in
/-- Bounds-checked model of the candidate loop of `BPM_Detector::findBeats`:
the loop bound `length - 9` is taken with `size_t` wrap-around (`usub64`) as
in the source, and the unguarded accesses `onsetFunction[i]` / `threshold[i]`
return `none` when out of range.  The neighbour reads are guarded by
`idx >= 0 && idx < length` in the source and stay total here. -/
noncomputable def findBeatsChecked (onsetFunction : List ℝ) (thresholdFactor : ℝ) :
    Option (List ℕ) :=
  let length := onsetFunction.length
  let thresholdVec := (List.range length).map (threshold onsetFunction thresholdFactor)
  let bound := usub64 length 9
  (List.range' 9 (bound - 9)).foldlM
    (fun (peaks : List ℕ) i => do
      let vi ← onsetFunction.get? i
      let ti ← thresholdVec.get? i
      if vi ≤ ti then pure peaks
      else if ∀ j : ℤ, -9 ≤ j → j ≤ 9 → j ≠ 0 →
          0 ≤ (i : ℤ) + j → (i : ℤ) + j < (length : ℤ) →
          ¬ vi < onsetFunction.getD ((i : ℤ) + j).toNat 0 then
        pure (peaks ++ [i])
      else pure peaks)
    []

/-- Association-list update for the tempo histogram:
`tempoHistogram[bpmKey] += value`, keeping first-insertion order. -/
def histAdd : List (ℤ × ℚ) → ℤ → ℚ → List (ℤ × ℚ)
  | [], key, value => [(key, value)]
  | (k, v) :: t, key, value =>
    if k = key then (k, v + value) :: t else (k, v) :: histAdd t key value

/-- Lookup in the tempo histogram (`tempoHistogram.count` / `operator[]`). -/
def histFind : List (ℤ × ℚ) → ℤ → Option ℚ
  | [], _ => none
  | (k, v) :: t, key => if k = key then some v else histFind t key

/-- The five weighted tempo interpretations each interval votes for
(lines 263-269): primary, double, half, triple and third tempo. -/
def voteTempos (primaryBPM : ℚ) : List (ℚ × ℚ) :=
  [(primaryBPM, 1), (primaryBPM * 2, 9 / 10), (primaryBPM / 2, 4 / 5),
   (primaryBPM * 3, 1 / 2), (primaryBPM / 3, 1 / 2)]

/-- Histogram voting of `BPM_Detector::estimateTempo` (lines 250-281):
interval `i` has weight `0.5 + 0.5·(i / count)`, and each of its tempo
interpretations lying in `[50, 220]` BPM adds `weight·voteWeight` at key
`int(bpm·2)` (0.5-BPM buckets; the cast truncates, here a floor since the
keys are positive). -/
def buildHistogram (intervals : List ℚ) : List (ℤ × ℚ) :=
  (List.range intervals.length).foldl
    (fun hist (i : ℕ) =>
      let weight : ℚ := 1 / 2 + 1 / 2 * ((i : ℚ) / intervals.length)
      let primaryBPM := 60 / intervals.getD i 0
      (voteTempos primaryBPM).foldl
        (fun h tempo =>
          if 50 ≤ tempo.1 ∧ tempo.1 ≤ 220 then
            histAdd h ⌊tempo.1 * 2⌋ (weight * tempo.2)
          else h)
        hist)
    []

/-- Maximum-score bucket search (lines 283-294): strict `>` keeps the first
maximum in iteration order.  `std::unordered_map` iterates in an unspecified
order; the model iterates in first-insertion order, which only matters for
exact ties between buckets. -/
def argmaxHist (hist : List (ℤ × ℚ)) : ℤ × ℚ :=
  hist.foldl (fun best entry => if best.2 < entry.2 then entry else best) (0, 0)

/-- Refinement scan of `BPM_Detector::estimateTempo` (lines 297-307) over the
remaining offsets: the first nearby bucket with weight above `0.92·maxScore`
replaces the winner by the weighted average of the two keys (cast to `int`,
a floor since everything is positive) and the scan stops. -/
def refineScan (hist : List (ℤ × ℚ)) (bestBPMKey : ℤ) (maxScore : ℚ) :
    List ℤ → ℤ
  | [] => bestBPMKey
  | offset :: rest =>
    let nearbyKey := bestBPMKey + offset
    match histFind hist nearbyKey with
    | some v =>
      if 92 / 100 * maxScore < v then
        ⌊((bestBPMKey : ℚ) * maxScore + (nearbyKey : ℚ) * v) / (maxScore + v)⌋
      else refineScan hist bestBPMKey maxScore rest
    | none => refineScan hist bestBPMKey maxScore rest

/-- The refinement loop `for (int offset = -3; offset <= 3; offset++)`. -/
def refineStep (hist : List (ℤ × ℚ)) (bestBPMKey : ℤ) (maxScore : ℚ) : ℤ :=
  refineScan hist bestBPMKey maxScore [-3, -2, -1, 0, 1, 2, 3]

/-- Modelled from the claim's wording (C8): scan the offsets −3..+3 in order,
and the first one whose bucket exists and has accumulated weight exceeding
`0.92·maxScore` triggers a one-time weighted average of the two bucket keys,
replacing the winner; without such a hit the winner stands. -/
def refineSpec (hist : List (ℤ × ℚ)) (bestBPMKey : ℤ) (maxScore : ℚ) : ℤ :=
  match ([-3, -2, -1, 0, 1, 2, 3] : List ℤ).find? (fun offset =>
      match histFind hist (bestBPMKey + offset) with
      | some v => decide (92 / 100 * maxScore < v)
      | none => false) with
  | some offset =>
    let v := (histFind hist (bestBPMKey + offset)).getD 0
    ⌊((bestBPMKey : ℚ) * maxScore + ((bestBPMKey + offset : ℤ) : ℚ) * v) /
      (maxScore + v)⌋
  | none => bestBPMKey

/-- The function `BPM_Detector::estimateTempo` (lines 218-319): fewer than 4
beats → 0; inter-beat intervals outside `[0.2 s, 2 s]` are discarded and an
empty remainder → 0; otherwise weighted histogram voting, the refinement
scan, folding into `[60, 180]` BPM and rounding.  Beat-to-time conversion is
`beat·hopSize / sampleRate` with exact rational arithmetic. -/
def estimateTempo (beats : List ℕ) (sampleRate hopSize : ℕ) : ℤ :=
  if beats.length < 4 then 0
  else
    let beatTimes : List ℚ := beats.map fun beat =>
      ((beat * hopSize : ℕ) : ℚ) / (sampleRate : ℚ)
    let intervals : List ℚ :=
      (List.range (beatTimes.length - 1)).filterMap fun i =>
        let ibi := beatTimes.getD (i + 1) 0 - beatTimes.getD i 0
        if 1 / 5 ≤ ibi ∧ ibi ≤ 2 then some ibi else none
    if intervals = [] then 0
    else
      let hist := buildHistogram intervals
      let best := argmaxHist hist
      let bestBPMKey := refineStep hist best.1 best.2
      let exactBPM : ℚ := (bestBPMKey : ℚ) / 2
      let folded :=
        if exactBPM < 60 then exactBPM * 2
        else if 180 < exactBPM then exactBPM / 2
        else exactBPM
      round folded

end BPM_Detector

/-! ## Power-of-two check -/

namespace FFT_Processor

/-- The bit trick `(N & (N - 1)) == 0` holds for powers of two. -/
theorem land_pred_eq_zero_of_pow2 (k : ℕ) : 2 ^ k &&& (2 ^ k - 1) = 0 := by
  apply Nat.eq_of_testBit_eq
  intro i
  rw [Nat.testBit_land, Nat.testBit_two_pow, Nat.testBit_two_pow_sub_one,
    Nat.zero_testBit]
  rcases Nat.lt_or_ge i k with h | h
  · simp [Nat.ne_of_gt h]
  · simp [Nat.not_lt.mpr h]

/-- Conversely, a positive `N` with `N & (N - 1) == 0` is a power of two. -/
theorem pow2_of_land_pred_eq_zero (N : ℕ) (h0 : 0 < N)
    (h : N &&& (N - 1) = 0) : ∃ k, N = 2 ^ k := by
  by_contra hc
  push_neg at hc
  have hp1 : 2 ^ N.log2 ≤ N := Nat.log2_self_le (by omega)
  have hp2 : N < 2 ^ (N.log2 + 1) := Nat.lt_log2_self
  rw [pow_succ] at hp2
  have hne : N ≠ 2 ^ N.log2 := hc N.log2
  have hdiv : (N - 1) / 2 ^ N.log2 = 1 :=
    Nat.div_eq_of_lt_le (by omega) (by omega)
  have hdivN : N / 2 ^ N.log2 = 1 :=
    Nat.div_eq_of_lt_le (by omega) (by omega)
  have hbN : N.testBit N.log2 = true := by
    rw [Nat.testBit_to_div_mod, hdivN]
    rfl
  have hbN1 : (N - 1).testBit N.log2 = true := by
    rw [Nat.testBit_to_div_mod, hdiv]
    rfl
  have hland : (N &&& (N - 1)).testBit N.log2 = true := by
    rw [Nat.testBit_land, hbN, hbN1]
    rfl
  rw [h, Nat.zero_testBit] at hland
  exact Bool.false_ne_true hland

end FFT_Processor

/-! ## C9: hanningWindow(1) -/

/-- C9: `hanningWindow(1)` is not rejected.  The source computes
`0.5·(1 - cos(2π·0/(1-1)))` — a division by zero on the unsigned `size - 1`
(NaN in C++, `0/0 = 0` in the exact model) — and returns a one-element
coefficient buffer instead of failing with InvalidArgument as the
specification requires.  This theorem evaluates the code at the failing
input `size = 1`. -/
theorem hanningWindow_one_returns_buffer :
    FFT_Processor.hanningWindow 1 = [0] := by
  unfold FFT_Processor.hanningWindow
  norm_num [List.range_succ]

/-! ## C5: FFT/IFFT guards -/

/-- C5: for a sequence whose length `N > 1` is not a power of two, both
`FFT` and `IFFT` fail with InvalidArgument; for `N ≤ 1` both are a no-op
returning the sequence unchanged. -/
theorem fft_ifft_guards (x : List ℂ) :
    (x.length ≤ 1 →
      FFT_Processor.FFT x = .ok x ∧ FFT_Processor.IFFT x = .ok x) ∧
    (1 < x.length → (¬ ∃ k, x.length = 2 ^ k) →
      FFT_Processor.FFT x = .error .invalidArgument ∧
      FFT_Processor.IFFT x = .error .invalidArgument) := by
  constructor
  · intro h
    rw [FFT_Processor.FFT, FFT_Processor.IFFT, if_pos h, if_pos h]
    exact ⟨rfl, rfl⟩
  · intro h1 hnp
    have hland : x.length &&& (x.length - 1) ≠ 0 := by
      intro hz
      exact hnp (FFT_Processor.pow2_of_land_pred_eq_zero x.length
        (by omega) hz)
    have hgt : ¬ x.length ≤ 1 := by omega
    rw [FFT_Processor.FFT, FFT_Processor.IFFT, if_neg hgt, if_neg hgt,
      if_pos hland, if_pos hland]
    exact ⟨rfl, rfl⟩

/-- Witness for C5 at concrete inputs: the empty sequence is returned
unchanged and a length-3 sequence is rejected. -/
theorem fft_ifft_guards_witness :
    FFT_Processor.FFT ([] : List ℂ) = .ok [] ∧
    FFT_Processor.FFT [(1 : ℂ), 0, 0] = .error .invalidArgument := by
  refine ⟨((fft_ifft_guards ([] : List ℂ)).1 (by simp)).1, ?_⟩
  refine ((fft_ifft_guards [(1 : ℂ), 0, 0]).2 (by simp) ?_).1
  rintro ⟨k, hk⟩
  simp only [List.length_cons, List.length_nil] at hk
  rcases k with _ | _ | k
  · norm_num at hk
  · norm_num at hk
  · have : 4 ≤ 2 ^ (k + 2) := by
      calc 4 = 2 ^ 2 := by norm_num
      _ ≤ 2 ^ (k + 2) := Nat.pow_le_pow_right (by norm_num) (by omega)
    omega

/-! ## C2: timeStretch guard clauses -/

/-- C2: `timeStretch` returns its input unchanged whenever the input is
empty, the factor is ≤ 0, the factor is within 0.001 of 1, or the factor
lies outside `[0.25, 4.0]` — in particular for factor 1.0. -/
theorem timeStretch_guard_identity (x : List ℝ) (f : ℚ)
    (h : x = [] ∨ f ≤ 0 ∨ |f - 1| < 1 / 1000 ∨ f < 1 / 4 ∨ 4 < f) :
    FFT_Processor.timeStretch x f = x := by
  unfold FFT_Processor.timeStretch
  rcases h with h | h | h | h | h
  · rw [if_pos (Or.inl (by simp [h]))]
  · rw [if_pos (Or.inr h)]
  · by_cases h0 : x.isEmpty = true ∨ f ≤ 0
    · rw [if_pos h0]
    · rw [if_neg h0, if_pos h]
  · by_cases h0 : x.isEmpty = true ∨ f ≤ 0
    · rw [if_pos h0]
    · rw [if_neg h0]
      by_cases h1 : |f - 1| < 1 / 1000
      · rw [if_pos h1]
      · rw [if_neg h1, if_pos (Or.inl h)]
  · by_cases h0 : x.isEmpty = true ∨ f ≤ 0
    · rw [if_pos h0]
    · rw [if_neg h0]
      by_cases h1 : |f - 1| < 1 / 1000
      · rw [if_pos h1]
      · rw [if_neg h1, if_pos (Or.inr h)]

/-- Witness for C2: `timeStretch([2.5], 1.0)` is the identity. -/
theorem timeStretch_guard_identity_witness :
    FFT_Processor.timeStretch [(2.5 : ℝ)] 1 = [(2.5 : ℝ)] :=
  timeStretch_guard_identity [(2.5 : ℝ)] 1 (by norm_num)

/-! ## C8: tempo refinement scan -/

/-- Helper: the break-on-first-hit scan equals a `find?` over the offsets. -/
theorem refineScan_eq_find (hist : List (ℤ × ℚ)) (k : ℤ) (m : ℚ) :
    ∀ offs : List ℤ, BPM_Detector.refineScan hist k m offs =
      match offs.find? (fun o =>
          match BPM_Detector.histFind hist (k + o) with
          | some v => decide (92 / 100 * m < v)
          | none => false) with
      | some o =>
        let v := (BPM_Detector.histFind hist (k + o)).getD 0
        ⌊((k : ℚ) * m + ((k + o : ℤ) : ℚ) * v) / (m + v)⌋
      | none => k := by
  intro offs
  induction offs with
  | nil => rfl
  | cons o rest ih =>
    rw [BPM_Detector.refineScan, List.find?_cons]
    cases hfind : BPM_Detector.histFind hist (k + o) with
    | none => simpa [hfind] using ih
    | some v =>
      by_cases hv : 92 / 100 * m < v
      · simp [hfind, hv]
      · simpa [hfind, hv] using ih

/-- C8: after the winning histogram bucket is found, `estimateTempo`'s
refinement scans offsets −3..+3 in order and the first nearby bucket whose
accumulated weight exceeds `0.92 × maxScore` triggers a one-time weighted
average of the two bucket keys, replacing the winner and stopping the scan:
the loop of the source (`refineStep`) coincides with this first-hit
description (`refineSpec`). -/
theorem refineStep_eq_refineSpec (hist : List (ℤ × ℚ)) (bestBPMKey : ℤ)
    (maxScore : ℚ) :
    BPM_Detector.refineStep hist bestBPMKey maxScore =
      BPM_Detector.refineSpec hist bestBPMKey maxScore := by
  rw [BPM_Detector.refineStep, refineScan_eq_find, BPM_Detector.refineSpec]

/-! ## C4: estimateTempo degenerate inputs -/

/-- C4: `estimateTempo` returns 0 for fewer than 4 beats, and returns 0 when
every consecutive inter-beat interval (difference of `index·hop/sampleRate`
times) lies outside `[0.2 s, 2.0 s]`. -/
theorem estimateTempo_zero_cases (beats : List ℕ) (sampleRate hopSize : ℕ) :
    (beats.length < 4 →
      BPM_Detector.estimateTempo beats sampleRate hopSize = 0) ∧
    ((∀ i, i + 1 < beats.length →
        ¬ (1 / 5 ≤ ((beats.getD (i + 1) 0 * hopSize : ℕ) : ℚ) / (sampleRate : ℚ)
              - ((beats.getD i 0 * hopSize : ℕ) : ℚ) / (sampleRate : ℚ) ∧
            ((beats.getD (i + 1) 0 * hopSize : ℕ) : ℚ) / (sampleRate : ℚ)
              - ((beats.getD i 0 * hopSize : ℕ) : ℚ) / (sampleRate : ℚ) ≤ 2)) →
      BPM_Detector.estimateTempo beats sampleRate hopSize = 0) := by
  constructor
  · intro h4
    rw [BPM_Detector.estimateTempo, if_pos h4]
  · intro hout
    rw [BPM_Detector.estimateTempo]
    by_cases h4 : beats.length < 4
    · rw [if_pos h4]
    · rw [if_neg h4]
      have hnil : (List.range ((beats.map fun beat =>
            ((beat * hopSize : ℕ) : ℚ) / (sampleRate : ℚ)).length - 1)).filterMap
            (fun i =>
              let ibi := (beats.map fun beat =>
                  ((beat * hopSize : ℕ) : ℚ) / (sampleRate : ℚ)).getD (i + 1) 0 -
                (beats.map fun beat =>
                  ((beat * hopSize : ℕ) : ℚ) / (sampleRate : ℚ)).getD i 0
              if 1 / 5 ≤ ibi ∧ ibi ≤ 2 then some ibi else none) = [] := by
        rw [List.filterMap_eq_nil_iff]
        intro i hi
        rw [List.mem_range, List.length_map] at hi
        have hi1 : i + 1 < beats.length := by omega
        have hgi : ∀ j, j < beats.length →
            (beats.map fun beat =>
              ((beat * hopSize : ℕ) : ℚ) / (sampleRate : ℚ)).getD j 0 =
            ((beats.getD j 0 * hopSize : ℕ) : ℚ) / (sampleRate : ℚ) := by
          intro j hj
          rw [List.getD_eq_getElem _ _ (by simpa using hj),
            List.getElem_map, List.getD_eq_getElem _ _ hj]
        rw [hgi _ hi1, hgi _ (by omega)]
        simp only [ite_eq_right_iff]
        intro hin
        exact absurd hin (hout i hi1)
      simp only [hnil, if_true, eq_self_iff_true]

/-- Witness for C4: three beats are not enough, and four beats all spaced
wider than 2 s give no valid interval; both return 0. -/
theorem estimateTempo_zero_cases_witness :
    BPM_Detector.estimateTempo [0, 1, 2] 44100 512 = 0 ∧
    BPM_Detector.estimateTempo [0, 200, 400, 600] 44100 512 = 0 := by
  constructor
  · exact (estimateTempo_zero_cases [0, 1, 2] 44100 512).1 (by norm_num)
  · refine (estimateTempo_zero_cases [0, 200, 400, 600] 44100 512).2 ?_
    intro i hi
    simp only [List.length_cons, List.length_nil] at hi
    have hi3 : i < 3 := by omega
    interval_cases i <;>
      norm_num [List.getD_cons_succ, List.getD_cons_zero]

/-! ## C6: detectOnsets frame count -/

/-- Helper: a fold preserves any invariant its step preserves. -/
theorem foldl_preserves {α β : Type} (f : β → α → β) (P : β → Prop)
    (hstep : ∀ b a, P b → P (f b a)) :
    ∀ (l : List α) (b : β), P b → P (l.foldl f b) := by
  intro l
  induction l with
  | nil => intro b hb; exact hb
  | cons a t ih => intro b hb; exact ih (f b a) (hstep b a hb)

/-- Helper: the flux fold produces one value per frame. -/
theorem spectralFlux_length (samples : List ℝ) (sampleRate windowSize numFrames : ℕ) :
    (BPM_Detector.spectralFlux samples sampleRate windowSize numFrames).length =
      numFrames := by
  unfold BPM_Detector.spectralFlux
  have h : ∀ (l : List ℕ) (st : (ℕ → ℝ) × List ℝ),
      ((l.foldl (fun (s : (ℕ → ℝ) × List ℝ) frame =>
        let r := BPM_Detector.fluxFrame samples sampleRate windowSize 512 s.1 frame
        (r.2, s.2 ++ [r.1])) st).2).length = st.2.length + l.length := by
    intro l
    induction l with
    | nil => intro st; simp
    | cons a t ih =>
      intro st
      rw [List.foldl_cons, ih]
      simp
      omega
  rw [h]
  simp

set_option maxRecDepth 16000 in
/-- Helper: the onset envelope always has `usub64(N, 1024) / 512 + 1`
entries — the frame count computed by `detectOnsets` in `size_t` arithmetic. -/
theorem detectOnsets_length (samples : List ℝ) (sampleRate : ℕ) :
    (BPM_Detector.detectOnsets samples sampleRate).length =
      usub64 samples.length 1024 / 512 + 1 := by
  unfold BPM_Detector.detectOnsets
  simp only [List.foldl_cons, List.foldl_nil, List.length_map, List.length_range]
  split <;> split <;>
    simp [List.length_zipWith, spectralFlux_length]

/-- C6 (amended): for at least 1024 input samples the onset envelope returned
by `detectOnsets` has exactly `(N - 1024)/512 + 1` elements, computed from
the smaller (1024) window only; 2048-window frames running past the input
end are zero-padded by `fluxFrame`, not dropped.  For `N < 1024` the claim's
formula does not hold: the `size_t` subtraction `N - 1024` wraps (see
`detectOnsets_frame_count_small`). -/
theorem detectOnsets_frame_count (samples : List ℝ) (sampleRate : ℕ)
    (h : 1024 ≤ samples.length) :
    (BPM_Detector.detectOnsets samples sampleRate).length =
      (samples.length - 1024) / 512 + 1 := by
  rw [detectOnsets_length, usub64, if_pos h]

set_option maxRecDepth 16000 in
/-- Witness for C6 at `N = 1024`: exactly one frame. -/
theorem detectOnsets_frame_count_witness :
    (BPM_Detector.detectOnsets (List.replicate 1024 (0 : ℝ)) 44100).length = 1 := by
  have h := detectOnsets_frame_count (List.replicate 1024 (0 : ℝ)) 44100
    (by simp)
  simpa using h

set_option maxRecDepth 16000 in
/-- Counterexample to C6 as stated: at `N = 512` the claimed count
`floor((N - 1024)/512) + 1 = 0`, but the `size_t` subtraction wraps and the
envelope has `(2^64 - 512)/512 + 1` elements (the C++ would attempt that
allocation). -/
theorem detectOnsets_frame_count_small :
    (BPM_Detector.detectOnsets (List.replicate 512 (0 : ℝ)) 44100).length ≠ 0 := by
  rw [detectOnsets_length]
  simp

/-! ## C3: timeStretch output length -/

/-- Helper: one stretch frame never changes the output or compensation
buffer lengths. -/
theorem stretchFrame_lengths (paddedInput analysisWindow synthesisWindow : List ℝ)
    (stretchFactor : ℚ) (windowSize analysisHop synthesisHop : ℕ)
    (st : FFT_Processor.StretchState) (pos : ℕ) :
    (FFT_Processor.stretchFrame paddedInput analysisWindow synthesisWindow
        stretchFactor windowSize analysisHop synthesisHop st pos).output.length =
      st.output.length ∧
    (FFT_Processor.stretchFrame paddedInput analysisWindow synthesisWindow
        stretchFactor windowSize analysisHop synthesisHop st pos
        ).overlapCompensation.length = st.overlapCompensation.length := by
  unfold FFT_Processor.stretchFrame
  simp only []
  split
  · refine foldl_preserves _
      (fun (s : List ℝ × List ℝ) => s.1.length = st.output.length ∧
        s.2.length = st.overlapCompensation.length) ?_ _ _ ⟨rfl, rfl⟩
    intro b a hb
    simpa only [List.length_set] using hb
  · exact ⟨rfl, rfl⟩

/-- Helper: the whole frame loop preserves the output buffer length. -/
theorem foldl_stretchFrame_output_length (positions : List ℕ)
    (paddedInput analysisWindow synthesisWindow : List ℝ) (stretchFactor : ℚ)
    (windowSize analysisHop synthesisHop : ℕ)
    (st : FFT_Processor.StretchState) :
    (positions.foldl (FFT_Processor.stretchFrame paddedInput analysisWindow
        synthesisWindow stretchFactor windowSize analysisHop synthesisHop)
      st).output.length = st.output.length :=
  (foldl_preserves _
    (fun s => s.output.length = st.output.length ∧
      s.overlapCompensation.length = st.overlapCompensation.length)
    (fun b a hb =>
      ⟨((stretchFrame_lengths _ _ _ _ _ _ _ b a).1).trans hb.1,
       ((stretchFrame_lengths _ _ _ _ _ _ _ b a).2).trans hb.2⟩)
    positions st ⟨rfl, rfl⟩).1

/-- Helper: the whole frame loop preserves the compensation buffer length. -/
theorem foldl_stretchFrame_comp_length (positions : List ℕ)
    (paddedInput analysisWindow synthesisWindow : List ℝ) (stretchFactor : ℚ)
    (windowSize analysisHop synthesisHop : ℕ)
    (st : FFT_Processor.StretchState) :
    (positions.foldl (FFT_Processor.stretchFrame paddedInput analysisWindow
        synthesisWindow stretchFactor windowSize analysisHop synthesisHop)
      st).overlapCompensation.length = st.overlapCompensation.length :=
  (foldl_preserves _
    (fun s => s.output.length = st.output.length ∧
      s.overlapCompensation.length = st.overlapCompensation.length)
    (fun b a hb =>
      ⟨((stretchFrame_lengths _ _ _ _ _ _ _ b a).1).trans hb.1,
       ((stretchFrame_lengths _ _ _ _ _ _ _ b a).2).trans hb.2⟩)
    positions st ⟨rfl, rfl⟩).2

/-- C3: for a non-empty input and a valid, non-trivial stretch factor
`f ∈ [0.25, 4]`, `|f - 1| ≥ 0.001`, the stretched buffer has exactly
`floor(inputLength · f)` samples. -/
theorem timeStretch_length (x : List ℝ) (f : ℚ) (hne : x ≠ [])
    (hlo : 1 / 4 ≤ f) (hhi : f ≤ 4) (hf1 : 1 / 1000 ≤ |f - 1|) :
    (FFT_Processor.timeStretch x f).length = (⌊(x.length : ℚ) * f⌋).toNat := by
  have hpos : (0 : ℚ) < f := lt_of_lt_of_le (by norm_num) hlo
  have h0 : ¬ (x.isEmpty = true ∨ f ≤ 0) := by
    simp only [List.isEmpty_iff, not_or, not_le]
    exact ⟨hne, hpos⟩
  have h1 : ¬ |f - 1| < 1 / 1000 := not_lt.mpr hf1
  have h2 : ¬ (f < 1 / 4 ∨ 4 < f) := by
    simp only [not_or, not_lt]
    exact ⟨hlo, hhi⟩
  unfold FFT_Processor.timeStretch
  rw [if_neg h0, if_neg h1, if_neg h2]
  have hcast : ((4096 : ℕ) : ℚ) = ((4096 : ℤ) : ℚ) := by norm_num
  have houtlen : (⌊(x.length : ℚ) * f + ((4096 : ℕ) : ℚ)⌋).toNat =
      (⌊(x.length : ℚ) * f⌋).toNat + 4096 := by
    rw [hcast, Int.floor_add_int]
    have hfl : (0 : ℤ) ≤ ⌊(x.length : ℚ) * f⌋ := by
      apply Int.floor_nonneg.mpr
      positivity
    omega
  simp only [List.length_map, apply_ite List.length, List.length_take,
    List.length_zipWith, foldl_stretchFrame_output_length,
    foldl_stretchFrame_comp_length, List.length_replicate, min_self,
    houtlen, ite_self]
  rw [if_pos (by omega), Nat.min_eq_left (by omega)]

/-- Witness for C3: stretching a one-sample buffer by 2 gives 2 samples. -/
theorem timeStretch_length_witness :
    (FFT_Processor.timeStretch [(1 : ℝ)] 2).length = 2 := by
  have h := timeStretch_length [(1 : ℝ)] 2 (by simp) (by norm_num) (by norm_num)
    (by norm_num)
  simpa using h

/-! ## C7: findBeats characterization -/

open Classical in
/-- C7: `findBeats` returns exactly the ascending list of indices
`i ∈ [9, length - 9)` whose envelope value strictly exceeds the adaptive
threshold (mean plus `factor·sqrt(variance)` over the centred, clamped
30-frame window) and that have no strictly larger neighbour within ±9
frames — equal neighbour values do not disqualify a candidate. -/
theorem findBeats_characterization (env : List ℝ) (factor : ℝ) :
    List.Sorted (· < ·) (BPM_Detector.findBeats env factor) ∧
    ∀ i : ℕ, i ∈ BPM_Detector.findBeats env factor ↔
      (9 ≤ i ∧ i < env.length - 9 ∧
        BPM_Detector.threshold env factor i < env.getD i 0 ∧
        ∀ j : ℤ, -9 ≤ j → j ≤ 9 → j ≠ 0 →
          0 ≤ (i : ℤ) + j → (i : ℤ) + j < (env.length : ℤ) →
          ¬ env.getD i 0 < env.getD ((i : ℤ) + j).toNat 0) := by
  constructor
  · exact List.Pairwise.sublist (List.filter_sublist _)
      (List.pairwise_lt_range' 9 (env.length - 18) 1 (by norm_num))
  · intro i
    rw [BPM_Detector.findBeats, List.mem_filter, decide_eq_true_eq,
      List.mem_range'_1]
    unfold BPM_Detector.isBeat
    constructor
    · rintro ⟨⟨h9, hlt⟩, ht, hn⟩
      exact ⟨h9, by omega, ht, hn⟩
    · rintro ⟨h9, hlt, ht, hn⟩
      exact ⟨⟨h9, by omega⟩, ht, hn⟩

/-- Witness for C7 at a concrete envelope: the returned beat list of a
constant 20-frame envelope is sorted. -/
theorem findBeats_characterization_witness :
    List.Sorted (· < ·)
      (BPM_Detector.findBeats (List.replicate 20 (0 : ℝ)) 1.3) :=
  (findBeats_characterization (List.replicate 20 (0 : ℝ)) 1.3).1

/-! ## C10: findBeats bounds safety -/

open Classical in
/-- Helper: with every candidate index in bounds, the checked candidate loop
succeeds and agrees with the filter over the candidates. -/
theorem foldlM_checked_eq_filter (env : List ℝ) (factor : ℝ) :
    ∀ (l : List ℕ), (∀ i ∈ l, i < env.length) → ∀ acc : List ℕ,
      (l.foldlM
        (fun (peaks : List ℕ) i => do
          let vi ← env.get? i
          let ti ← ((List.range env.length).map
            (BPM_Detector.threshold env factor)).get? i
          if vi ≤ ti then pure peaks
          else if ∀ j : ℤ, -9 ≤ j → j ≤ 9 → j ≠ 0 →
              0 ≤ (i : ℤ) + j → (i : ℤ) + j < (env.length : ℤ) →
              ¬ vi < env.getD ((i : ℤ) + j).toNat 0 then
            pure (peaks ++ [i])
          else pure peaks)
        acc) =
      some (acc ++ l.filter fun i =>
        decide (BPM_Detector.isBeat env factor i)) := by
  intro l
  induction l with
  | nil =>
    intro _ acc
    simp [List.foldlM_nil]
  | cons a t ih =>
    intro hbound acc
    have ha : a < env.length := hbound a (List.mem_cons_self a t)
    have hget : env.get? a = some (env.getD a 0) := by
      rw [List.get?_eq_getElem?, List.getElem?_eq_getElem ha,
        List.getD_eq_getElem _ _ ha]
    have hth : ((List.range env.length).map
        (BPM_Detector.threshold env factor)).get? a =
        some (BPM_Detector.threshold env factor a) := by
      rw [List.get?_eq_getElem?, List.getElem?_map, List.getElem?_range ha]
      rfl
    rw [List.foldlM_cons]
    simp only [hget, hth, Option.bind_eq_bind, Option.some_bind,
      Option.pure_def, List.filter_cons]
    by_cases hle : env.getD a 0 ≤ BPM_Detector.threshold env factor a
    · rw [if_pos hle]
      have hdec : decide (BPM_Detector.isBeat env factor a) = false := by
        simp only [decide_eq_false_iff_not, BPM_Detector.isBeat, not_and]
        intro hgt
        exact absurd hgt (not_lt.mpr hle)
      rw [hdec]
      simpa using ih (fun i hi => hbound i (List.mem_cons_of_mem a hi)) acc
    · rw [if_neg hle]
      push_neg at hle
      by_cases hnb : ∀ j : ℤ, -9 ≤ j → j ≤ 9 → j ≠ 0 →
          0 ≤ (a : ℤ) + j → (a : ℤ) + j < (env.length : ℤ) →
          ¬ env.getD a 0 < env.getD ((a : ℤ) + j).toNat 0
      · rw [if_pos hnb]
        have hdec : decide (BPM_Detector.isBeat env factor a) = true :=
          decide_eq_true ⟨hle, hnb⟩
        rw [hdec]
        have := ih (fun i hi => hbound i (List.mem_cons_of_mem a hi)) (acc ++ [a])
        simpa [List.append_assoc] using this
      · rw [if_neg hnb]
        have hdec : decide (BPM_Detector.isBeat env factor a) = false := by
          simp only [decide_eq_false_iff_not, BPM_Detector.isBeat, not_and]
          intro _
          exact hnb
        rw [hdec]
        simpa using ih (fun i hi => hbound i (List.mem_cons_of_mem a hi)) acc

/-- C10: for an envelope of at least 9 frames every index access of the
`findBeats` candidate loop is in bounds — the checked model with
`Option`-returning indexing and the `size_t` loop bound never takes its
out-of-range branch and agrees with `findBeats`.  The precondition is
load-bearing: the bound `length - 9` is unsigned, so shorter envelopes
(reachable from the public interface, e.g. a 1024-sample input giving a
1-frame envelope) would read out of bounds. -/
theorem findBeatsChecked_safe (env : List ℝ) (factor : ℝ)
    (h : 9 ≤ env.length) :
    BPM_Detector.findBeatsChecked env factor =
      some (BPM_Detector.findBeats env factor) := by
  unfold BPM_Detector.findBeatsChecked BPM_Detector.findBeats
  have hbound : usub64 env.length 9 = env.length - 9 := by
    rw [usub64, if_pos h]
  have hsub : env.length - 9 - 9 = env.length - 18 := by omega
  simp only [hbound, hsub]
  apply foldlM_checked_eq_filter
  intro i hi
  rw [List.mem_range'_1] at hi
  omega

/-- Witness for C10 on a concrete 9-frame envelope. -/
theorem findBeatsChecked_safe_witness :
    BPM_Detector.findBeatsChecked (List.replicate 9 (0 : ℝ)) 1.3 =
      some (BPM_Detector.findBeats (List.replicate 9 (0 : ℝ)) 1.3) :=
  findBeatsChecked_safe (List.replicate 9 (0 : ℝ)) 1.3 (by simp)

/-! ## C1: FFT/IFFT round trip — bit reversal -/

namespace FFT_Processor

/-- Bit reversal of zero is zero. -/
theorem bitRev_zero (n : ℕ) : bitRev n 0 = 0 := by
  induction n with
  | zero => rfl
  | succ n ih => simp [bitRev, ih]

/-- Bit reversal stays below `2 ^ n`. -/
theorem bitRev_lt (n : ℕ) : ∀ m, bitRev n m < 2 ^ n := by
  induction n with
  | zero => intro m; simp [bitRev]
  | succ n ih =>
    intro m
    have h2 : m % 2 < 2 := Nat.mod_lt _ (by norm_num)
    have := ih (m / 2)
    have hle : m % 2 * 2 ^ n ≤ 2 ^ n := by
      have h1 : m % 2 ≤ 1 := by omega
      calc m % 2 * 2 ^ n ≤ 1 * 2 ^ n := Nat.mul_le_mul_right _ h1
      _ = 2 ^ n := one_mul _
    calc bitRev (n + 1) m = m % 2 * 2 ^ n + bitRev n (m / 2) := rfl
    _ < 2 ^ n + 2 ^ n := by omega
    _ = 2 ^ (n + 1) := by rw [pow_succ]; ring

/-- Alternative decomposition of bit reversal: peeling the top input bit
instead of the bottom one. -/
theorem bitRev_succ_right (n : ℕ) : ∀ m, m < 2 ^ (n + 1) →
    bitRev (n + 1) m = 2 * bitRev n (m % 2 ^ n) + m / 2 ^ n := by
  induction n with
  | zero =>
    intro m hm
    interval_cases m <;> rfl
  | succ n ih =>
    intro m hm
    have hdiv : m / 2 < 2 ^ (n + 1) := by
      rw [pow_succ] at hm
      omega
    have e1 : bitRev (n + 2) m = m % 2 * 2 ^ (n + 1) + bitRev (n + 1) (m / 2) := rfl
    rw [e1, ih (m / 2) hdiv]
    have e2 : bitRev (n + 2 - 1) (m % 2 ^ (n + 1)) =
        m % 2 ^ (n + 1) % 2 * 2 ^ n + bitRev n (m % 2 ^ (n + 1) / 2) := rfl
    have hmod2 : m % 2 ^ (n + 1) % 2 = m % 2 := by
      rw [Nat.mod_mod_of_dvd]
      exact dvd_pow_self 2 (by omega)
    have hmoddiv : m % 2 ^ (n + 1) / 2 = m / 2 % 2 ^ n := by
      have : (2 : ℕ) ^ (n + 1) = 2 * 2 ^ n := by rw [pow_succ]; ring
      rw [this, Nat.mod_mul_right_div_self]
    have hdd : m / 2 / 2 ^ n = m / 2 ^ (n + 1) := by
      rw [Nat.div_div_eq_div_mul, pow_succ]
      ring_nf
    rw [show n + 2 - 1 = n + 1 from rfl] at e2
    rw [e2, hmod2, hmoddiv, hdd]
    have : (2 : ℕ) ^ (n + 1) = 2 * 2 ^ n := by rw [pow_succ]; ring
    rw [this]
    ring

/-- Bit reversal is an involution on `[0, 2 ^ n)`. -/
theorem bitRev_bitRev (n : ℕ) : ∀ m, m < 2 ^ n → bitRev n (bitRev n m) = m := by
  induction n with
  | zero =>
    intro m hm
    interval_cases m
    rfl
  | succ n ih =>
    intro m hm
    have hrlt : bitRev n (m / 2) < 2 ^ n := bitRev_lt n (m / 2)
    have e1 : bitRev (n + 1) m = m % 2 * 2 ^ n + bitRev n (m / 2) := rfl
    have hv : bitRev (n + 1) m < 2 ^ (n + 1) := bitRev_lt (n + 1) m
    rw [e1, bitRev_succ_right n _ (by rw [← e1]; exact hv)]
    have hmod : (m % 2 * 2 ^ n + bitRev n (m / 2)) % 2 ^ n = bitRev n (m / 2) := by
      rw [mul_comm, Nat.mul_add_mod, Nat.mod_eq_of_lt hrlt]
    have hdiv : (m % 2 * 2 ^ n + bitRev n (m / 2)) / 2 ^ n = m % 2 := by
      rw [mul_comm, Nat.mul_add_div (Nat.pos_pow_of_pos n (by norm_num)),
        Nat.div_eq_of_lt hrlt, Nat.add_zero]
    rw [hmod, hdiv, ih (m / 2) (by rw [pow_succ] at hm; omega)]
    omega

/-- The Gold–Rader loop increments a bit-reversed counter: from `bitRev n m`
it produces `bitRev n (m + 1)`, provided `m + 1` stays below `2 ^ n`. -/
theorem grLoop_bitRev (n : ℕ) : ∀ m, m + 1 < 2 ^ n →
    grLoop (bitRev n m) (2 ^ n / 2) = bitRev n (m + 1) := by
  induction n with
  | zero => intro m hm; omega
  | succ n ih =>
    intro m hm
    have hpow : (2 : ℕ) ^ (n + 1) = 2 * 2 ^ n := by rw [pow_succ]; ring
    have hbit : (2 : ℕ) ^ (n + 1) / 2 = 2 ^ n := by
      rw [hpow, Nat.mul_div_cancel_left _ (by norm_num)]
    have hpos : (0 : ℕ) < 2 ^ n := Nat.pos_pow_of_pos n (by norm_num)
    have hrlt : bitRev n (m / 2) < 2 ^ n := bitRev_lt n (m / 2)
    rw [hbit]
    rcases Nat.even_or_odd m with he | ho
    · -- m even: the top bit of bitRev is clear, the loop adds it.
      have hm2 : m % 2 = 0 := Nat.even_iff.mp he
      have e1 : bitRev (n + 1) m = bitRev n (m / 2) := by
        show m % 2 * 2 ^ n + bitRev n (m / 2) = _
        rw [hm2]
        ring
      have e2 : bitRev (n + 1) (m + 1) = 2 ^ n + bitRev n (m / 2) := by
        show (m + 1) % 2 * 2 ^ n + bitRev n ((m + 1) / 2) = _
        have h1 : (m + 1) % 2 = 1 := by omega
        have h2 : (m + 1) / 2 = m / 2 := by omega
        rw [h1, h2]
        ring
      rw [e1, e2]
      rw [grLoop]
      rw [if_neg (by omega), if_neg (by omega)]
      omega
    · -- m odd: strip the set top bit and recurse on the remaining bits.
      have hm2 : m % 2 = 1 := Nat.odd_iff.mp ho
      have e1 : bitRev (n + 1) m = 2 ^ n + bitRev n (m / 2) := by
        show m % 2 * 2 ^ n + bitRev n (m / 2) = _
        rw [hm2]
        ring
      have e2 : bitRev (n + 1) (m + 1) = bitRev n (m / 2 + 1) := by
        show (m + 1) % 2 * 2 ^ n + bitRev n ((m + 1) / 2) = _
        have h1 : (m + 1) % 2 = 0 := by omega
        have h2 : (m + 1) / 2 = m / 2 + 1 := by omega
        rw [h1, h2]
        ring
      rw [e1, e2]
      rw [grLoop]
      rw [if_neg (by omega), if_pos (by omega)]
      have hsub : 2 ^ n + bitRev n (m / 2) - 2 ^ n = bitRev n (m / 2) := by omega
      rw [hsub]
      exact ih (m / 2) (by omega)

/-- State of the array after the swap loop has processed indices `1..m`:
every position whose pair `{k, bitRev n k}` has been reached holds the
reversed data, every other position is untouched. -/
noncomputable def revPartial (n m : ℕ) (x : ℕ → ℂ) : ℕ → ℂ := fun k =>
  if k < 2 ^ n ∧ (k ≤ m ∨ bitRev n k ≤ m) then x (bitRev n k) else x k

/-- Value of `revPartial` on a reached position. -/
theorem revPartial_pos (n m : ℕ) (x : ℕ → ℂ) (k : ℕ) (h1 : k < 2 ^ n)
    (h2 : k ≤ m ∨ bitRev n k ≤ m) : revPartial n m x k = x (bitRev n k) :=
  if_pos ⟨h1, h2⟩

/-- Value of `revPartial` on an unreached position. -/
theorem revPartial_neg (n m : ℕ) (x : ℕ → ℂ) (k : ℕ)
    (h : ¬ (k < 2 ^ n ∧ (k ≤ m ∨ bitRev n k ≤ m))) :
    revPartial n m x k = x k :=
  if_neg h

/-- Before any swap the array is untouched. -/
theorem revPartial_zero (n : ℕ) (x : ℕ → ℂ) : revPartial n 0 x = x := by
  funext k
  by_cases hk : k < 2 ^ n ∧ (k ≤ 0 ∨ bitRev n k ≤ 0)
  · rw [revPartial_pos n 0 x k hk.1 hk.2]
    obtain ⟨hkn, hor⟩ := hk
    have hk0 : k = 0 := by
      rcases hor with h | h
      · omega
      · have h0 : bitRev n k = 0 := by omega
        have := bitRev_bitRev n k hkn
        rw [h0, bitRev_zero] at this
        omega
    rw [hk0, bitRev_zero]
  · exact revPartial_neg n 0 x k hk

/-- One conditional swap advances `revPartial` by one index. -/
theorem revPartial_step (n m : ℕ) (x : ℕ → ℂ) (hm1 : m + 1 < 2 ^ n) :
    (if m + 1 < bitRev n (m + 1)
      then swapFn (revPartial n m x) (m + 1) (bitRev n (m + 1))
      else revPartial n m x) = revPartial n (m + 1) x := by
  have hr : bitRev n (m + 1) < 2 ^ n := bitRev_lt n (m + 1)
  have hinv : bitRev n (bitRev n (m + 1)) = m + 1 := bitRev_bitRev n _ hm1
  funext k
  have hgen : k ≠ m + 1 → k ≠ bitRev n (m + 1) →
      revPartial n m x k = revPartial n (m + 1) x k := by
    intro hk1 hk2
    by_cases hc : k < 2 ^ n ∧ (k ≤ m ∨ bitRev n k ≤ m)
    · rw [revPartial_pos n m x k hc.1 hc.2,
        revPartial_pos n (m + 1) x k hc.1 (by omega)]
    · rw [revPartial_neg n m x k hc]
      rw [revPartial_neg n (m + 1) x k]
      intro hc'
      apply hc
      refine ⟨hc'.1, ?_⟩
      rcases hc'.2 with h | h
      · left
        omega
      · right
        rcases Nat.lt_or_ge (bitRev n k) (m + 1) with h2 | h2
        · omega
        · exfalso
          have heq : bitRev n k = m + 1 := by omega
          apply hk2
          rw [← heq, bitRev_bitRev n k hc'.1]
  by_cases hswap : m + 1 < bitRev n (m + 1)
  · rw [if_pos hswap]
    unfold swapFn
    by_cases hk1 : k = m + 1
    · rw [if_pos hk1, hk1]
      rw [revPartial_neg n m x (bitRev n (m + 1)) (by rw [hinv]; omega),
        revPartial_pos n (m + 1) x (m + 1) hm1 (Or.inl (le_refl _))]
    · rw [if_neg hk1]
      by_cases hk2 : k = bitRev n (m + 1)
      · rw [if_pos hk2, hk2]
        rw [revPartial_neg n m x (m + 1) (by omega),
          revPartial_pos n (m + 1) x (bitRev n (m + 1)) hr
            (Or.inr (by rw [hinv])), hinv]
      · rw [if_neg hk2]
        exact hgen hk1 hk2
  · rw [if_neg hswap]
    push_neg at hswap
    by_cases hk1 : k = m + 1
    · rw [hk1]
      by_cases hreq : bitRev n (m + 1) = m + 1
      · rw [revPartial_neg n m x (m + 1) (by omega),
          revPartial_pos n (m + 1) x (m + 1) hm1 (Or.inl (le_refl _)), hreq]
      · have hle : bitRev n (m + 1) ≤ m := by omega
        rw [revPartial_pos n m x (m + 1) hm1 (Or.inr hle),
          revPartial_pos n (m + 1) x (m + 1) hm1 (Or.inl (le_refl _))]
    · by_cases hk2 : k = bitRev n (m + 1)
      · have hne : bitRev n (m + 1) ≠ m + 1 := fun he => hk1 (by rw [hk2, he])
        have hle : bitRev n (m + 1) ≤ m := by omega
        rw [hk2, revPartial_pos n m x _ hr (Or.inl hle),
          revPartial_pos n (m + 1) x _ hr (Or.inl (by omega))]
      · exact hgen hk1 hk2

/-- Invariant of the bit-reversal swap loop: after processing `i = 1..m`,
the counter holds `bitRev n m` and the array is `revPartial n m`. -/
theorem bitrevLoop_invariant (n : ℕ) (x : ℕ → ℂ) :
    ∀ m, m ≤ 2 ^ n - 1 →
      ((List.range' 1 m).foldl
        (fun (s : (ℕ → ℂ) × ℕ) i =>
          let j := grLoop s.2 (2 ^ n / 2)
          (if i < j then swapFn s.1 i j else s.1, j))
        (x, 0)) =
      (revPartial n m x, bitRev n m) := by
  intro m
  induction m with
  | zero =>
    intro _
    simp only [List.range'_zero, List.foldl_nil, bitRev_zero, revPartial_zero]
  | succ m ih =>
    intro hm
    have hpos : (0 : ℕ) < 2 ^ n := Nat.pos_pow_of_pos n (by norm_num)
    have hm1 : m + 1 < 2 ^ n := by omega
    rw [List.range'_concat, List.foldl_append, ih (by omega), List.foldl_cons,
      List.foldl_nil]
    simp only []
    rw [grLoop_bitRev n m hm1]
    have hone : 1 + 1 * m = m + 1 := by ring
    rw [hone, revPartial_step n m x hm1]

/-- The bit-reversal pass permutes the array by `bitRev`: reading position
`i < 2 ^ n` of the output gives input position `bitRev n i`. -/
theorem bitrevLoop_eq (n : ℕ) (x : ℕ → ℂ) (i : ℕ) (hi : i < 2 ^ n) :
    bitrevLoop (2 ^ n) x i = x (bitRev n i) := by
  unfold bitrevLoop
  rw [bitrevLoop_invariant n x (2 ^ n - 1) (le_refl _)]
  exact revPartial_pos n (2 ^ n - 1) x i hi (Or.inl (by omega))

/-! ### Twiddle factor algebra -/

/-- Twiddle factor with an integer index (helper for conjugates). -/
noncomputable def twz (N : ℕ) (d : ℤ) : ℂ :=
  Complex.exp (Complex.ofReal (-(2 * Real.pi * d) / N) * Complex.I)

/-- The stored twiddle `cos θ + i sin θ` is `exp(iθ)`. -/
theorem tw_eq_exp (N k : ℕ) :
    tw N k = Complex.exp (Complex.ofReal (-(2 * Real.pi * k) / N) * Complex.I) := by
  rw [Complex.exp_mul_I, ← Complex.ofReal_cos, ← Complex.ofReal_sin]
  rfl

/-- Twiddles with natural index agree with the integer-index helper. -/
theorem tw_eq_twz (N k : ℕ) : tw N k = twz N (k : ℤ) := by
  rw [tw_eq_exp, twz]
  norm_num

/-- Integer twiddles turn addition into multiplication. -/
theorem twz_add (N : ℕ) (a b : ℤ) : twz N (a + b) = twz N a * twz N b := by
  rw [twz, twz, twz, ← Complex.exp_add]
  congr 1
  push_cast
  ring

/-- Integer twiddles raised to a natural power. -/
theorem twz_pow (N : ℕ) (d : ℤ) (j : ℕ) : twz N d ^ j = twz N (d * j) := by
  rw [twz, twz, ← Complex.exp_nat_mul]
  congr 1
  push_cast
  ring

/-- A full multiple of `N` gives the unit twiddle. -/
theorem twz_N_mul (N : ℕ) (hN : N ≠ 0) (e : ℤ) : twz N (N * e) = 1 := by
  rw [twz]
  have hN' : (N : ℝ) ≠ 0 := Nat.cast_ne_zero.mpr hN
  have harg : (-(2 * Real.pi * ((((N : ℤ) * e) : ℤ) : ℝ)) / (N : ℝ)) =
      (((-e : ℤ) : ℝ)) * (2 * Real.pi) := by
    push_cast
    field_simp
    ring
  rw [harg]
  have hmul : Complex.ofReal ((((-e : ℤ) : ℝ)) * (2 * Real.pi)) * Complex.I =
      ((-e : ℤ) : ℂ) * (2 * (Real.pi : ℂ) * Complex.I) := by
    push_cast
    ring
  rw [hmul]
  exact Complex.exp_int_mul_two_pi_mul_I (-e)

/-- Conjugation negates the twiddle index. -/
theorem conj_tw (N m : ℕ) : (starRingEnd ℂ) (tw N m) = twz N (-(m : ℤ)) := by
  rw [tw_eq_exp, twz, ← Complex.exp_conj]
  congr 1
  rw [map_mul, Complex.conj_I, Complex.conj_ofReal]
  push_cast
  ring

/-- The integer twiddle equals 1 exactly on multiples of `N`. -/
theorem twz_eq_one_iff (N : ℕ) (hN : N ≠ 0) (d : ℤ) :
    twz N d = 1 ↔ (N : ℤ) ∣ d := by
  constructor
  · intro h
    rw [twz, Complex.exp_eq_one_iff] at h
    obtain ⟨e, he⟩ := h
    have hN' : (N : ℝ) ≠ 0 := Nat.cast_ne_zero.mpr hN
    have he2 : Complex.ofReal (-(2 * Real.pi * d) / N) * Complex.I =
        Complex.ofReal (e * (2 * Real.pi)) * Complex.I := by
      rw [he]
      push_cast
      ring
    have he3 : (-(2 * Real.pi * d) / N : ℝ) = e * (2 * Real.pi) := by
      have := mul_right_cancel₀ Complex.I_ne_zero he2
      exact_mod_cast this
    have hpi : (0 : ℝ) < 2 * Real.pi := by positivity
    field_simp at he3
    have h2 : (2 * Real.pi) * (-(d : ℝ)) = (2 * Real.pi) * ((e : ℝ) * N) := by
      calc (2 * Real.pi) * (-(d : ℝ)) = -(2 * Real.pi * d) := by ring
      _ = e * (2 * Real.pi) * N := he3
      _ = (2 * Real.pi) * ((e : ℝ) * N) := by ring
    have h3 := mul_left_cancel₀ hpi.ne' h2
    refine ⟨-e, ?_⟩
    have h4 : (d : ℝ) = ((N * -e : ℤ) : ℝ) := by push_cast; linarith
    exact_mod_cast h4
  · rintro ⟨e, he⟩
    rw [he]
    exact twz_N_mul N hN e

/-- Orthogonality of the twiddle rows: summing `tw(jt)·conj(tw(jk))` over a
full period gives `N` on the diagonal and 0 off it. -/
theorem tw_orthogonal (N : ℕ) (hN : 0 < N) (t k : ℕ) (ht : t < N) (hk : k < N) :
    (Finset.range N).sum
      (fun j => tw N (j * t) * (starRingEnd ℂ) (tw N (j * k))) =
      if t = k then (N : ℂ) else 0 := by
  have hterm : ∀ j : ℕ, tw N (j * t) * (starRingEnd ℂ) (tw N (j * k)) =
      twz N ((t : ℤ) - k) ^ j := by
    intro j
    rw [tw_eq_twz, conj_tw, ← twz_add, twz_pow]
    congr 1
    push_cast
    ring
  rw [Finset.sum_congr rfl fun j _ => hterm j]
  by_cases heq : t = k
  · subst heq
    have h0 : ((t : ℤ) - t) = 0 := by ring
    rw [h0]
    have h1 : twz N 0 = 1 := by
      have := twz_N_mul N (by omega) 0
      simpa using this
    simp [h1]
  · have hd0 : (t : ℤ) - k ≠ 0 := by
      intro h
      apply heq
      omega
    have hz1 : twz N ((t : ℤ) - k) ≠ 1 := by
      intro h
      rw [twz_eq_one_iff N (by omega)] at h
      have habs : (N : ℤ) ∣ |(t : ℤ) - k| := (dvd_abs _ _).mpr h
      have hlt : |(t : ℤ) - k| < N := by
        rw [abs_lt]
        omega
      have hpos : 0 < |(t : ℤ) - k| := abs_pos.mpr hd0
      have := Int.le_of_dvd hpos habs
      omega
    rw [geom_sum_eq hz1]
    have hzN : twz N ((t : ℤ) - k) ^ N = 1 := by
      rw [twz_pow]
      have h : ((t : ℤ) - k) * N = N * ((t : ℤ) - k) := by ring
      rw [h]
      exact twz_N_mul N (by omega) _
    rw [hzN]
    simp [heq]

/-- Twiddles of a zero-length table are trivial (division by zero gives a
zero angle in the exact model). -/
theorem tw_N_zero (k : ℕ) : tw 0 k = 1 := by
  simp [tw]

/-- Unit twiddle at index zero. -/
theorem tw_zero (N : ℕ) : tw N 0 = 1 := by
  simp [tw]

/-- Twiddles turn index addition into multiplication. -/
theorem tw_add (N a b : ℕ) : tw N (a + b) = tw N a * tw N b := by
  rw [tw_eq_twz, tw_eq_twz, tw_eq_twz, ← twz_add]
  norm_num

/-- The table stride identity: entry `m·(N/L)` of the size-`N` table is entry
`m` of the size-`L` table, when `L` divides `N`. -/
theorem tw_mul_div (N L m : ℕ) (hL : L ∣ N) (hN : N ≠ 0) :
    tw N (m * (N / L)) = tw L m := by
  have hL0 : L ≠ 0 := by
    rintro rfl
    exact hN (Nat.eq_zero_of_zero_dvd hL)
  have hN' : (N : ℝ) ≠ 0 := Nat.cast_ne_zero.mpr hN
  have hL' : (L : ℝ) ≠ 0 := Nat.cast_ne_zero.mpr hL0
  rw [tw_eq_exp, tw_eq_exp]
  congr 2
  have hNc : (N : ℂ) ≠ 0 := Nat.cast_ne_zero.mpr hN
  have hLc : (L : ℂ) ≠ 0 := Nat.cast_ne_zero.mpr hL0
  have hNL : ((N / L : ℕ) : ℝ) = (N : ℝ) / L := Nat.cast_div hL hL'
  push_cast [hNL]
  rw [div_eq_div_iff hNc hLc]
  have hc : ((N : ℂ) / L) * L = N := div_mul_cancel₀ _ hLc
  calc -(2 * (Real.pi : ℂ) * ((m : ℂ) * ((N : ℂ) / L))) * L
      = -(2 * (Real.pi : ℂ) * m) * (((N : ℂ) / L) * L) := by ring
  _ = -(2 * (Real.pi : ℂ) * m) * N := by rw [hc]

/-- Doubling both the table size and the index changes nothing. -/
theorem tw_two_mul (L m : ℕ) : tw (2 * L) (2 * m) = tw L m := by
  by_cases hL : L = 0
  · rw [hL, mul_zero, tw_N_zero, tw_N_zero]
  · have hL' : (L : ℝ) ≠ 0 := Nat.cast_ne_zero.mpr hL
    rw [tw_eq_exp, tw_eq_exp]
    congr 2
    have hLc : (L : ℂ) ≠ 0 := Nat.cast_ne_zero.mpr hL
    push_cast
    rw [div_eq_div_iff (mul_ne_zero two_ne_zero hLc) hLc]
    ring

/-- Full-period twiddle. -/
theorem tw_self (L : ℕ) : tw L L = 1 := by
  by_cases hL : L = 0
  · rw [hL]
    exact tw_N_zero 0
  · rw [tw_eq_twz]
    have := twz_N_mul L hL 1
    simpa using this

/-- Twiddles are `L`-periodic in the index. -/
theorem tw_add_mul_self (L a u : ℕ) : tw L (a + L * u) = tw L a := by
  induction u with
  | zero => simp
  | succ u ih =>
    have h : a + L * (u + 1) = (a + L * u) + L := by ring
    rw [h, tw_add, tw_self, mul_one, ih]

/-- Half-period twiddle: entry `L` of the size-`2L` table is `-1`. -/
theorem tw_half (L : ℕ) (hL : L ≠ 0) : tw (2 * L) L = -1 := by
  have hL' : (L : ℝ) ≠ 0 := Nat.cast_ne_zero.mpr hL
  rw [tw_eq_exp]
  have harg : (-(2 * Real.pi * (L : ℝ)) / (((2 * L : ℕ) : ℝ))) = -Real.pi := by
    push_cast
    field_simp
    ring
  rw [harg, Complex.exp_mul_I, ← Complex.ofReal_cos, ← Complex.ofReal_sin,
    Real.cos_neg, Real.sin_neg, Real.cos_pi, Real.sin_pi]
  norm_num

/-- Anti-periodicity at the half period. -/
theorem tw_add_half (L a : ℕ) (hL : L ≠ 0) :
    tw (2 * L) (a + L) = -tw (2 * L) a := by
  rw [tw_add, tw_half L hL]
  ring

/-! ### The iterative stages compute the DFT -/

/-- The discrete Fourier transform: entry `j` is `Σ_t x_t · exp(-2πi·jt/N)`. -/
noncomputable def dft (x : List ℂ) : List ℂ :=
  (List.range x.length).map fun j =>
    (Finset.range x.length).sum fun t => x.getD t 0 * tw x.length (j * t)

/-- Splitting a sum over `2L` indices into even and odd halves. -/
theorem sum_range_double {M : Type} [AddCommMonoid M] (L : ℕ) (f : ℕ → M) :
    (Finset.range (2 * L)).sum f =
      (Finset.range L).sum (fun u => f (2 * u)) +
        (Finset.range L).sum (fun u => f (2 * u + 1)) := by
  induction L with
  | zero => simp
  | succ L ih =>
    rw [show 2 * (L + 1) = 2 * L + 1 + 1 by ring, Finset.sum_range_succ,
      Finset.sum_range_succ, ih, Finset.sum_range_succ, Finset.sum_range_succ]
    have h1 : 2 * L + 1 = 2 * L + 1 := rfl
    abel

/-- Invariant of the butterfly stages: after `s` stages, block `q` of size
`2^s` holds the size-`2^s` DFT of the input subsampled at stride `2^(n-s)`
and offset `bitRev (n-s) q`. -/
theorem fftStages_invariant (n : ℕ) (y : ℕ → ℂ) (a : ℕ → ℂ)
    (ha : ∀ k, k < 2 ^ n → a k = y (bitRev n k)) :
    ∀ s, s ≤ n → ∀ i, i < 2 ^ n →
      fftStages (2 ^ n) a s i =
        (Finset.range (2 ^ s)).sum fun t =>
          y (t * 2 ^ (n - s) + bitRev (n - s) (i / 2 ^ s)) *
            tw (2 ^ s) ((i % 2 ^ s) * t) := by
  intro s
  induction s with
  | zero =>
    intro _ i hi
    rw [show fftStages (2 ^ n) a 0 i = a i from rfl, ha i hi]
    simp [tw_zero]
  | succ s ih =>
    intro hs i hi
    have hsn : s ≤ n := by omega
    have hpow : (2 : ℕ) ^ (s + 1) = 2 * 2 ^ s := by rw [pow_succ]; ring
    have hposS : (0 : ℕ) < 2 ^ s := Nat.pos_pow_of_pos s (by norm_num)
    have hposS1 : (0 : ℕ) < 2 ^ (s + 1) := Nat.pos_pow_of_pos (s + 1) (by norm_num)
    have hiqr := Nat.div_add_mod i (2 ^ (s + 1))
    have hrlt : i % 2 ^ (s + 1) < 2 ^ (s + 1) := Nat.mod_lt i hposS1
    have hqlt : i / 2 ^ (s + 1) < 2 ^ (n - s - 1) := by
      rw [Nat.div_lt_iff_lt_mul hposS1]
      have hpowadd : 2 ^ (n - s - 1) * 2 ^ (s + 1) = 2 ^ n := by
        rw [← pow_add]
        congr 1
        omega
      rw [hpowadd]
      exact hi
    have hns : n - s = (n - s - 1) + 1 := by omega
    have hnpow : (2 : ℕ) ^ (n - s) = 2 * 2 ^ (n - s - 1) := by
      have h := pow_succ 2 (n - s - 1)
      rw [← hns] at h
      omega
    have hsub1 : n - (s + 1) = n - s - 1 := by omega
    have h1 : 2 ^ (s + 1) * (i / 2 ^ (s + 1)) =
        2 ^ s * (2 * (i / 2 ^ (s + 1))) := by rw [hpow]; ring
    obtain ⟨m, hm⟩ : ∃ m, n - s = m + 1 := ⟨n - s - 1, hns⟩
    have hm2 : n - s - 1 = m := by omega
    have hbr_even : bitRev (n - s) (2 * (i / 2 ^ (s + 1))) =
        bitRev (n - s - 1) (i / 2 ^ (s + 1)) := by
      rw [hm2, hm]
      show 2 * (i / 2 ^ (s + 1)) % 2 * 2 ^ m +
        bitRev m (2 * (i / 2 ^ (s + 1)) / 2) = _
      rw [Nat.mul_mod_right, Nat.mul_div_cancel_left _ (by norm_num : (0:ℕ) < 2)]
      simp
    have hbr_odd : bitRev (n - s) (2 * (i / 2 ^ (s + 1)) + 1) =
        2 ^ (n - s - 1) + bitRev (n - s - 1) (i / 2 ^ (s + 1)) := by
      rw [hm2, hm]
      show (2 * (i / 2 ^ (s + 1)) + 1) % 2 * 2 ^ m +
        bitRev m ((2 * (i / 2 ^ (s + 1)) + 1) / 2) = _
      have hodd1 : (2 * (i / 2 ^ (s + 1)) + 1) % 2 = 1 := by omega
      have hodd2 : (2 * (i / 2 ^ (s + 1)) + 1) / 2 = i / 2 ^ (s + 1) := by omega
      rw [hodd1, hodd2, one_mul]
    have hstage : fftStages (2 ^ n) a (s + 1) i =
        stageLen (2 ^ n) (2 ^ (s + 1)) (fftStages (2 ^ n) a s) i := rfl
    rw [hstage]
    unfold stageLen
    simp only []
    have hhalf : (2 : ℕ) ^ (s + 1) / 2 = 2 ^ s := by
      rw [hpow, Nat.mul_div_cancel_left _ (by norm_num : (0:ℕ) < 2)]
    rw [hhalf]
    rw [hsub1]
    by_cases hcase : i % 2 ^ (s + 1) < 2 ^ s
    · rw [if_pos hcase]
      -- block-arithmetic facts for the lower half
      have hidiv : i / 2 ^ s = 2 * (i / 2 ^ (s + 1)) := by
        calc i / 2 ^ s
            = (2 ^ (s + 1) * (i / 2 ^ (s + 1)) + i % 2 ^ (s + 1)) / 2 ^ s := by
              rw [hiqr]
        _ = (2 ^ s * (2 * (i / 2 ^ (s + 1))) + i % 2 ^ (s + 1)) / 2 ^ s := by
              rw [h1]
        _ = 2 * (i / 2 ^ (s + 1)) + i % 2 ^ (s + 1) / 2 ^ s := by
              rw [Nat.mul_add_div hposS]
        _ = 2 * (i / 2 ^ (s + 1)) := by
              rw [Nat.div_eq_of_lt hcase, Nat.add_zero]
      have himod : i % 2 ^ s = i % 2 ^ (s + 1) := by
        calc i % 2 ^ s
            = (2 ^ s * (2 * (i / 2 ^ (s + 1))) + i % 2 ^ (s + 1)) % 2 ^ s := by
              rw [← h1, hiqr]
        _ = i % 2 ^ (s + 1) % 2 ^ s := by rw [Nat.mul_add_mod]
        _ = i % 2 ^ (s + 1) := Nat.mod_eq_of_lt hcase
      have hiL : i + 2 ^ s < 2 ^ n := by
        have step1 : i + 2 ^ s =
            2 ^ (s + 1) * (i / 2 ^ (s + 1)) + (i % 2 ^ (s + 1) + 2 ^ s) := by
          omega
        have step2 : i % 2 ^ (s + 1) + 2 ^ s < 2 ^ (s + 1) := by omega
        calc i + 2 ^ s
            = 2 ^ (s + 1) * (i / 2 ^ (s + 1)) + (i % 2 ^ (s + 1) + 2 ^ s) := step1
        _ < 2 ^ (s + 1) * (i / 2 ^ (s + 1)) + 2 ^ (s + 1) :=
              Nat.add_lt_add_left step2 _
        _ = 2 ^ (s + 1) * (i / 2 ^ (s + 1) + 1) := by ring
        _ ≤ 2 ^ (s + 1) * 2 ^ (n - s - 1) := Nat.mul_le_mul_left _ hqlt
        _ = 2 ^ n := by rw [← pow_add]; congr 1; omega
      have hdiv2 : (i + 2 ^ s) / 2 ^ s = 2 * (i / 2 ^ (s + 1)) + 1 := by
        rw [Nat.add_div_right _ hposS, hidiv]
      have hmod2 : (i + 2 ^ s) % 2 ^ s = i % 2 ^ (s + 1) := by
        rw [Nat.add_mod_right, himod]
      have ihi := ih hsn i hi
      have ihi2 := ih hsn (i + 2 ^ s) hiL
      rw [hidiv, himod, hbr_even] at ihi
      rw [hdiv2, hmod2, hbr_odd] at ihi2
      have htw : tw (2 ^ n) (i % 2 ^ (s + 1) * (2 ^ n / 2 ^ (s + 1))) =
          tw (2 ^ (s + 1)) (i % 2 ^ (s + 1)) :=
        tw_mul_div (2 ^ n) (2 ^ (s + 1)) _ (pow_dvd_pow 2 hs)
          (pow_ne_zero n (by norm_num))
      rw [ihi, ihi2, htw]
      have hsplit := sum_range_double (2 ^ s)
        (fun t => y (t * 2 ^ (n - s - 1) +
            bitRev (n - s - 1) (i / 2 ^ (s + 1))) *
          tw (2 ^ (s + 1)) (i % 2 ^ (s + 1) * t))
      rw [← hpow] at hsplit
      rw [hsplit]
      have heven : (Finset.range (2 ^ s)).sum
          (fun u => y (2 * u * 2 ^ (n - s - 1) +
              bitRev (n - s - 1) (i / 2 ^ (s + 1))) *
            tw (2 ^ (s + 1)) (i % 2 ^ (s + 1) * (2 * u))) =
          (Finset.range (2 ^ s)).sum
          (fun t => y (t * 2 ^ (n - s) +
              bitRev (n - s - 1) (i / 2 ^ (s + 1))) *
            tw (2 ^ s) (i % 2 ^ (s + 1) * t)) := by
        refine Finset.sum_congr rfl fun u _ => ?_
        have harg : 2 * u * 2 ^ (n - s - 1) = u * 2 ^ (n - s) := by
          rw [hnpow]; ring
        have htww : tw (2 ^ (s + 1)) (i % 2 ^ (s + 1) * (2 * u)) =
            tw (2 ^ s) (i % 2 ^ (s + 1) * u) := by
          rw [show i % 2 ^ (s + 1) * (2 * u) =
            2 * (i % 2 ^ (s + 1) * u) by ring, hpow]
          exact tw_two_mul _ _
        rw [harg, htww]
      have hodd : (Finset.range (2 ^ s)).sum
          (fun u => y ((2 * u + 1) * 2 ^ (n - s - 1) +
              bitRev (n - s - 1) (i / 2 ^ (s + 1))) *
            tw (2 ^ (s + 1)) (i % 2 ^ (s + 1) * (2 * u + 1))) =
          tw (2 ^ (s + 1)) (i % 2 ^ (s + 1)) *
            (Finset.range (2 ^ s)).sum
            (fun t => y (t * 2 ^ (n - s) +
                (2 ^ (n - s - 1) + bitRev (n - s - 1) (i / 2 ^ (s + 1)))) *
              tw (2 ^ s) (i % 2 ^ (s + 1) * t)) := by
        rw [Finset.mul_sum]
        refine Finset.sum_congr rfl fun u _ => ?_
        have harg : (2 * u + 1) * 2 ^ (n - s - 1) +
            bitRev (n - s - 1) (i / 2 ^ (s + 1)) =
            u * 2 ^ (n - s) +
              (2 ^ (n - s - 1) + bitRev (n - s - 1) (i / 2 ^ (s + 1))) := by
          rw [hnpow]; ring
        have htww : tw (2 ^ (s + 1)) (i % 2 ^ (s + 1) * (2 * u + 1)) =
            tw (2 ^ s) (i % 2 ^ (s + 1) * u) *
              tw (2 ^ (s + 1)) (i % 2 ^ (s + 1)) := by
          rw [show i % 2 ^ (s + 1) * (2 * u + 1) =
            2 * (i % 2 ^ (s + 1) * u) + i % 2 ^ (s + 1) by ring, tw_add]
          congr 1
          rw [hpow]
          exact tw_two_mul _ _
        rw [harg, htww]
        ring
      rw [heven, hodd]
    · rw [if_neg hcase]
      have hge : 2 ^ s ≤ i % 2 ^ (s + 1) := Nat.le_of_not_lt hcase
      have hj : i % 2 ^ (s + 1) - 2 ^ s < 2 ^ s := by omega
      have himod_le : i % 2 ^ (s + 1) ≤ i := Nat.mod_le i _
      have hisub_lt : i - 2 ^ s < 2 ^ n := by omega
      have h2 : 2 ^ s * (2 * (i / 2 ^ (s + 1)) + 1) =
          2 ^ s * (2 * (i / 2 ^ (s + 1))) + 2 ^ s := by ring
      have heqA : i - 2 ^ s =
          2 ^ s * (2 * (i / 2 ^ (s + 1))) + (i % 2 ^ (s + 1) - 2 ^ s) := by
        omega
      have heqB : i =
          2 ^ s * (2 * (i / 2 ^ (s + 1)) + 1) + (i % 2 ^ (s + 1) - 2 ^ s) := by
        omega
      have hdiv3 : (i - 2 ^ s) / 2 ^ s = 2 * (i / 2 ^ (s + 1)) := by
        conv_lhs => rw [heqA]
        rw [Nat.mul_add_div hposS, Nat.div_eq_of_lt hj, Nat.add_zero]
      have hmod3 : (i - 2 ^ s) % 2 ^ s = i % 2 ^ (s + 1) - 2 ^ s := by
        conv_lhs => rw [heqA]
        rw [Nat.mul_add_mod, Nat.mod_eq_of_lt hj]
      have hdiv4 : i / 2 ^ s = 2 * (i / 2 ^ (s + 1)) + 1 := by
        conv_lhs => rw [heqB]
        rw [Nat.mul_add_div hposS, Nat.div_eq_of_lt hj, Nat.add_zero]
      have hmod4 : i % 2 ^ s = i % 2 ^ (s + 1) - 2 ^ s := by
        conv_lhs => rw [heqB]
        rw [Nat.mul_add_mod, Nat.mod_eq_of_lt hj]
      have ihi := ih hsn (i - 2 ^ s) hisub_lt
      have ihi2 := ih hsn i hi
      rw [hdiv3, hmod3, hbr_even] at ihi
      rw [hdiv4, hmod4, hbr_odd] at ihi2
      have htw : tw (2 ^ n) ((i % 2 ^ (s + 1) - 2 ^ s) * (2 ^ n / 2 ^ (s + 1))) =
          tw (2 ^ (s + 1)) (i % 2 ^ (s + 1) - 2 ^ s) :=
        tw_mul_div (2 ^ n) (2 ^ (s + 1)) _ (pow_dvd_pow 2 hs)
          (pow_ne_zero n (by norm_num))
      rw [ihi, ihi2, htw]
      have hsplit := sum_range_double (2 ^ s)
        (fun t => y (t * 2 ^ (n - s - 1) +
            bitRev (n - s - 1) (i / 2 ^ (s + 1))) *
          tw (2 ^ (s + 1)) (i % 2 ^ (s + 1) * t))
      rw [← hpow] at hsplit
      rw [hsplit]
      have hRu : ∀ u : ℕ, i % 2 ^ (s + 1) * u =
          (i % 2 ^ (s + 1) - 2 ^ s) * u + 2 ^ s * u := by
        intro u
        have hR : i % 2 ^ (s + 1) - 2 ^ s + 2 ^ s = i % 2 ^ (s + 1) := by omega
        calc i % 2 ^ (s + 1) * u
            = (i % 2 ^ (s + 1) - 2 ^ s + 2 ^ s) * u := by rw [hR]
        _ = (i % 2 ^ (s + 1) - 2 ^ s) * u + 2 ^ s * u := by ring
      have heven : (Finset.range (2 ^ s)).sum
          (fun u => y (2 * u * 2 ^ (n - s - 1) +
              bitRev (n - s - 1) (i / 2 ^ (s + 1))) *
            tw (2 ^ (s + 1)) (i % 2 ^ (s + 1) * (2 * u))) =
          (Finset.range (2 ^ s)).sum
          (fun t => y (t * 2 ^ (n - s) +
              bitRev (n - s - 1) (i / 2 ^ (s + 1))) *
            tw (2 ^ s) ((i % 2 ^ (s + 1) - 2 ^ s) * t)) := by
        refine Finset.sum_congr rfl fun u _ => ?_
        have harg : 2 * u * 2 ^ (n - s - 1) = u * 2 ^ (n - s) := by
          rw [hnpow]; ring
        have htww : tw (2 ^ (s + 1)) (i % 2 ^ (s + 1) * (2 * u)) =
            tw (2 ^ s) ((i % 2 ^ (s + 1) - 2 ^ s) * u) := by
          rw [show i % 2 ^ (s + 1) * (2 * u) =
            2 * (i % 2 ^ (s + 1) * u) by ring, hRu u, hpow, tw_two_mul,
            tw_add_mul_self]
        rw [harg, htww]
      have hodd : (Finset.range (2 ^ s)).sum
          (fun u => y ((2 * u + 1) * 2 ^ (n - s - 1) +
              bitRev (n - s - 1) (i / 2 ^ (s + 1))) *
            tw (2 ^ (s + 1)) (i % 2 ^ (s + 1) * (2 * u + 1))) =
          -(tw (2 ^ (s + 1)) (i % 2 ^ (s + 1) - 2 ^ s) *
            (Finset.range (2 ^ s)).sum
            (fun t => y (t * 2 ^ (n - s) +
                (2 ^ (n - s - 1) + bitRev (n - s - 1) (i / 2 ^ (s + 1)))) *
              tw (2 ^ s) ((i % 2 ^ (s + 1) - 2 ^ s) * t))) := by
        rw [Finset.mul_sum, ← Finset.sum_neg_distrib]
        refine Finset.sum_congr rfl fun u _ => ?_
        have harg : (2 * u + 1) * 2 ^ (n - s - 1) +
            bitRev (n - s - 1) (i / 2 ^ (s + 1)) =
            u * 2 ^ (n - s) +
              (2 ^ (n - s - 1) + bitRev (n - s - 1) (i / 2 ^ (s + 1))) := by
          rw [hnpow]; ring
        have htww : tw (2 ^ (s + 1)) (i % 2 ^ (s + 1) * (2 * u + 1)) =
            tw (2 ^ s) ((i % 2 ^ (s + 1) - 2 ^ s) * u) *
              -(tw (2 ^ (s + 1)) (i % 2 ^ (s + 1) - 2 ^ s)) := by
          rw [show i % 2 ^ (s + 1) * (2 * u + 1) =
            2 * (i % 2 ^ (s + 1) * u) + i % 2 ^ (s + 1) by ring, tw_add]
          have hfirst : tw (2 ^ (s + 1)) (2 * (i % 2 ^ (s + 1) * u)) =
              tw (2 ^ s) ((i % 2 ^ (s + 1) - 2 ^ s) * u) := by
            rw [hRu u, hpow, tw_two_mul, tw_add_mul_self]
          have hsecond : tw (2 ^ (s + 1)) (i % 2 ^ (s + 1)) =
              -(tw (2 ^ (s + 1)) (i % 2 ^ (s + 1) - 2 ^ s)) := by
            have hR : i % 2 ^ (s + 1) = i % 2 ^ (s + 1) - 2 ^ s + 2 ^ s := by
              omega
            conv_lhs => rw [hR]
            rw [hpow]
            exact tw_add_half (2 ^ s) _ hposS.ne'
          rw [hfirst, hsecond]
        rw [harg, htww]
        ring
      rw [heven, hodd]
      ring

/-- The transform body preserves the length. -/
theorem fftRun_length (x : List ℂ) : (fftRun x).length = x.length := by
  unfold fftRun
  simp

/-- The DFT preserves the length. -/
theorem dft_length (x : List ℂ) : (dft x).length = x.length := by
  unfold dft
  simp

/-- The iterative in-place algorithm computes the discrete Fourier
transform on any power-of-two-length input. -/
theorem fftRun_eq_dft (n : ℕ) (x : List ℂ) (hx : x.length = 2 ^ n) :
    fftRun x = dft x := by
  unfold fftRun dft
  simp only [hx, Nat.log2_two_pow]
  refine List.map_congr_left fun i hi => ?_
  rw [List.mem_range] at hi
  have ha : ∀ k, k < 2 ^ n →
      bitrevLoop (2 ^ n) (fun j => x.getD j 0) k = x.getD (bitRev n k) 0 :=
    fun k hk => bitrevLoop_eq n _ k hk
  rw [fftStages_invariant n (fun j => x.getD j 0) _ ha n (le_refl n) i hi]
  refine Finset.sum_congr rfl fun t _ => ?_
  have h0 : n - n = 0 := Nat.sub_self n
  rw [h0]
  have hb : bitRev 0 (i / 2 ^ n) = 0 := rfl
  rw [hb, pow_zero, mul_one, Nat.add_zero, Nat.mod_eq_of_lt hi]

/-- Value of a `dft` entry. -/
theorem dft_getD (x : List ℂ) (j : ℕ) (hj : j < x.length) :
    (dft x).getD j 0 =
      (Finset.range x.length).sum fun t => x.getD t 0 * tw x.length (j * t) := by
  unfold dft
  rw [List.getD_eq_getElem _ _ (by simpa using hj), List.getElem_map,
    List.getElem_range]

/-- Conjugating a mapped list entrywise (with conjugation-invariant default). -/
theorem getD_map_conj (l : List ℂ) (t : ℕ) :
    (l.map fun z => (starRingEnd ℂ) z).getD t 0 =
      (starRingEnd ℂ) (l.getD t 0) := by
  by_cases ht : t < l.length
  · rw [List.getD_eq_getElem _ _ (by simpa using ht), List.getElem_map,
      List.getD_eq_getElem _ _ ht]
  · rw [List.getD_eq_default _ _ (by simpa using Nat.le_of_not_lt ht),
      List.getD_eq_default _ _ (Nat.le_of_not_lt ht)]
    simp

/-- The inverse body undoes the forward body on power-of-two lengths:
conjugate, transform, conjugate and scale by `1/N` recovers the input. -/
theorem ifftRun_fftRun (n : ℕ) (x : List ℂ) (hx : x.length = 2 ^ n) :
    ifftRun (fftRun x) = x := by
  have hN : (0 : ℕ) < 2 ^ n := Nat.pos_pow_of_pos n (by norm_num)
  have hNC : (((2 : ℕ) ^ n : ℕ) : ℂ) ≠ 0 := Nat.cast_ne_zero.mpr hN.ne'
  have hfx : fftRun x = dft x := fftRun_eq_dft n x hx
  unfold ifftRun
  simp only [hfx]
  have hlen : (dft x).length = 2 ^ n := by rw [dft_length, hx]
  have hlen2 : ((dft x).map fun z => (starRingEnd ℂ) z).length = 2 ^ n := by
    simp [hlen]
  rw [fftRun_eq_dft n _ hlen2]
  refine List.ext_getElem ?_ ?_
  · simp [dft_length, hlen, hx]
  intro i h1 h2
  have hi : i < 2 ^ n := by rw [← hx]; exact h2
  rw [List.getElem_map]
  have hgd : ∀ (l : List ℂ) (j : ℕ) (h : j < l.length), l[j] = l.getD j 0 :=
    fun l j h => (List.getD_eq_getElem l 0 h).symm
  rw [hgd _ _ (by simpa [dft_length, hlen2] using hi)]
  rw [dft_getD _ i (by rw [hlen2]; exact hi)]
  rw [hlen2]
  have hsum : (Finset.range (2 ^ n)).sum
      (fun t => ((dft x).map fun z => (starRingEnd ℂ) z).getD t 0 *
        tw (2 ^ n) (i * t)) =
      (Finset.range (2 ^ n)).sum
      (fun t => (starRingEnd ℂ)
        ((Finset.range (2 ^ n)).sum fun u => x.getD u 0 * tw (2 ^ n) (t * u)) *
          tw (2 ^ n) (i * t)) := by
    refine Finset.sum_congr rfl fun t ht => ?_
    rw [Finset.mem_range] at ht
    rw [getD_map_conj, dft_getD x t (by omega)]
    rw [hx]
  rw [hsum, map_sum]
  have hterm : (Finset.range (2 ^ n)).sum (fun t => (starRingEnd ℂ)
      ((starRingEnd ℂ) ((Finset.range (2 ^ n)).sum
          fun u => x.getD u 0 * tw (2 ^ n) (t * u)) * tw (2 ^ n) (i * t))) =
      (Finset.range (2 ^ n)).sum (fun t =>
        ((Finset.range (2 ^ n)).sum fun u => x.getD u 0 * tw (2 ^ n) (t * u)) *
          (starRingEnd ℂ) (tw (2 ^ n) (i * t))) := by
    refine Finset.sum_congr rfl fun t _ => ?_
    rw [map_mul, Complex.conj_conj]
  rw [hterm]
  have hortho : ∀ u ∈ Finset.range (2 ^ n),
      (Finset.range (2 ^ n)).sum
        (fun t => tw (2 ^ n) (t * u) * (starRingEnd ℂ) (tw (2 ^ n) (i * t))) =
      if u = i then (((2 : ℕ) ^ n : ℕ) : ℂ) else 0 := by
    intro u hu
    rw [Finset.mem_range] at hu
    have horth := tw_orthogonal (2 ^ n) hN u i hu hi
    rw [← horth]
    refine Finset.sum_congr rfl fun t _ => ?_
    rw [mul_comm i t]
  have hmain : (Finset.range (2 ^ n)).sum (fun t =>
      ((Finset.range (2 ^ n)).sum fun u => x.getD u 0 * tw (2 ^ n) (t * u)) *
        (starRingEnd ℂ) (tw (2 ^ n) (i * t))) =
      x.getD i 0 * (((2 : ℕ) ^ n : ℕ) : ℂ) := by
    calc (Finset.range (2 ^ n)).sum (fun t =>
        ((Finset.range (2 ^ n)).sum fun u => x.getD u 0 * tw (2 ^ n) (t * u)) *
          (starRingEnd ℂ) (tw (2 ^ n) (i * t)))
        = (Finset.range (2 ^ n)).sum (fun t =>
            (Finset.range (2 ^ n)).sum fun u =>
              x.getD u 0 * tw (2 ^ n) (t * u) *
                (starRingEnd ℂ) (tw (2 ^ n) (i * t))) := by
          refine Finset.sum_congr rfl fun t _ => ?_
          rw [Finset.sum_mul]
    _ = (Finset.range (2 ^ n)).sum (fun u =>
          (Finset.range (2 ^ n)).sum fun t =>
            x.getD u 0 * tw (2 ^ n) (t * u) *
              (starRingEnd ℂ) (tw (2 ^ n) (i * t))) := Finset.sum_comm
    _ = (Finset.range (2 ^ n)).sum (fun u => x.getD u 0 *
          (Finset.range (2 ^ n)).sum fun t =>
            tw (2 ^ n) (t * u) * (starRingEnd ℂ) (tw (2 ^ n) (i * t))) := by
          refine Finset.sum_congr rfl fun u _ => ?_
          rw [Finset.mul_sum]
          refine Finset.sum_congr rfl fun t _ => ?_
          ring
    _ = (Finset.range (2 ^ n)).sum (fun u => x.getD u 0 *
          if u = i then (((2 : ℕ) ^ n : ℕ) : ℂ) else 0) := by
          refine Finset.sum_congr rfl fun u hu => ?_
          rw [hortho u hu]
    _ = x.getD i 0 * (((2 : ℕ) ^ n : ℕ) : ℂ) := by
          rw [Finset.sum_eq_single i]
          · rw [if_pos rfl]
          · intro b _ hb
            rw [if_neg hb, mul_zero]
          · intro hni
            exact absurd (Finset.mem_range.mpr hi) hni
  rw [hmain, hgd x i h2, hlen]
  field_simp

end FFT_Processor

/-! ## C1: the round trip -/

/-- C1: for every complex sequence whose length is a power of two, running
the forward transform and then the inverse transform recovers the sequence —
in the exact-arithmetic model the recovery is exact, so in particular every
element is within the claimed 1e-4 relative tolerance of the original. -/
theorem fft_ifft_roundtrip (x : List ℂ) (k : ℕ) (hx : x.length = 2 ^ k) :
    (FFT_Processor.FFT x).bind FFT_Processor.IFFT = Except.ok x ∧
    ∀ y, (FFT_Processor.FFT x).bind FFT_Processor.IFFT = Except.ok y →
      ∀ i < x.length,
        Complex.abs (y.getD i 0 - x.getD i 0) ≤
          1 / 10000 * Complex.abs (x.getD i 0) := by
  have hmain : (FFT_Processor.FFT x).bind FFT_Processor.IFFT = Except.ok x := by
    rcases Nat.eq_zero_or_pos k with rfl | hk
    · have h1 : x.length ≤ 1 := by rw [hx]; norm_num
      rw [FFT_Processor.FFT, if_pos h1]
      show FFT_Processor.IFFT x = Except.ok x
      rw [FFT_Processor.IFFT, if_pos h1]
    · have h1 : ¬ x.length ≤ 1 := by
        rw [hx]
        have : 2 ^ 1 ≤ 2 ^ k := Nat.pow_le_pow_right (by norm_num) hk
        omega
      have hland : ¬ x.length &&& (x.length - 1) ≠ 0 := by
        rw [hx]
        simp only [ne_eq, not_not]
        exact FFT_Processor.land_pred_eq_zero_of_pow2 k
      rw [FFT_Processor.FFT, if_neg h1, if_neg hland]
      show FFT_Processor.IFFT (FFT_Processor.fftRun x) = _
      have hlen : (FFT_Processor.fftRun x).length = 2 ^ k := by
        rw [FFT_Processor.fftRun_length, hx]
      have h1' : ¬ (FFT_Processor.fftRun x).length ≤ 1 := by rw [hlen]; omega
      have hland' : ¬ (FFT_Processor.fftRun x).length &&&
          ((FFT_Processor.fftRun x).length - 1) ≠ 0 := by
        rw [hlen]
        simp only [ne_eq, not_not]
        exact FFT_Processor.land_pred_eq_zero_of_pow2 k
      rw [FFT_Processor.IFFT, if_neg h1', if_neg hland',
        FFT_Processor.ifftRun_fftRun k x hx]
  refine ⟨hmain, fun y hy i _ => ?_⟩
  rw [hmain] at hy
  have hxy : x = y := by
    injection hy
  rw [← hxy, sub_self, map_zero]
  positivity

/-- Witness for C1 at the concrete one-element input `[1]`. -/
theorem fft_ifft_roundtrip_witness :
    (FFT_Processor.FFT [(1 : ℂ)]).bind FFT_Processor.IFFT =
      Except.ok [(1 : ℂ)] :=
  (fft_ifft_roundtrip [(1 : ℂ)] 0 (by simp)).1

end AudioAnalyzer
